import Mathlib

/-!
# RFM customer-segmentation engine: a shallow embedding

This development embeds the core of the RFM (Recency / Frequency / Monetary)
dashboard application (`src/app.py`) and proves the spec's claims about it.

Modelling conventions:
* Order dates and the snapshot date are integers counting whole days
  (the source parses timestamps and only ever uses `(snapshot - max date).days`).
* Monetary amounts and quantile arithmetic are exact rationals; the source
  computes with pandas/numpy floats, whose linear-interpolation quantiles on
  the inputs considered here are the same rational-valued functions.
* `pandas.DataFrame.groupby(key)` sorts the distinct keys ascending and emits
  one aggregated row per key; this is `customersOf` below.
* `pandas.qcut(x, 5, labels)` computes 6 quantile bin edges at probabilities
  0, 1/5, ..., 1 by linear interpolation over the sorted values, raises
  a `ValueError` ("Bin edges must be unique") when the edges are not pairwise
  distinct, and otherwise assigns each value the label of its right-closed
  bin (the lowest bin also includes its left edge).  This is `qcut` below,
  with the failure modelled in `Except`.
* `Series.rank(method := first)` assigns ascending ranks `1..n`, breaking
  ties by position; this is `rankFirst` below.
* numpy scalar division (`champion_revenue / total_revenue`) does not raise
  on a zero denominator: it emits a `RuntimeWarning` and produces a
  non-finite float (`nan`/`inf`).  `npDiv` models that value as `none`.
-/

namespace RFM

/-- One raw order row of the uploaded CSV (`user_id, order_id, order_date,
product_name, order_value, discount_given`). -/
structure OrderRecord where
  user_id : Nat
  order_id : Nat
  order_date : Int
  product_name : String
  order_value : ℚ
  discount_given : ℚ
deriving Repr, DecidableEq, Inhabited

/-- One aggregated row of the `rfm` dataframe (`app.py` lines 45-51). -/
structure CustomerMetrics where
  user_id : Nat
  Recency : Int
  Frequency : Nat
  Monetary : ℚ
deriving Repr, DecidableEq, Inhabited

/-- The distinct customer ids, ascending: `df.groupby(user_id)` groups by the
distinct keys in sorted order. -/
def customersOf (orders : List OrderRecord) : List Nat :=
  List.insertionSort (· ≤ ·) (orders.map (·.user_id)).dedup

/-- The rows of one customer, in file order. -/
def rowsOf (orders : List OrderRecord) (u : Nat) : List OrderRecord :=
  orders.filter (fun r => r.user_id == u)

/-- `df.groupby(user_id).agg(order_date := max recency, order_id := count,
order_value := sum)` (`app.py` lines 45-51): one row per distinct customer,
Recency in whole days against the snapshot date, Frequency the raw row count,
Monetary the (gross) sum of order values. -/
def rfm (orders : List OrderRecord) (snapshot_date : Int) : List CustomerMetrics :=
  (customersOf orders).map fun u =>
    let rows := rowsOf orders u
    { user_id := u
      Recency := snapshot_date - ((rows.map (·.order_date)).max?.getD 0)
      Frequency := rows.length
      Monetary := (rows.map (·.order_value)).sum }

/-- Linear interpolation into a (sorted) value list at fractional index `h`,
as `numpy.quantile`: with `i = ⌊h⌋`, the value is
`s[i] + (h - i) * (s[i+1] - s[i])`, clamped to the last element. -/
def interp (s : List ℚ) (h : ℚ) : ℚ :=
  if ⌊h⌋₊ + 1 < s.length then
    s.getD ⌊h⌋₊ 0 + (h - (⌊h⌋₊ : ℚ)) * (s.getD (⌊h⌋₊ + 1) 0 - s.getD ⌊h⌋₊ 0)
  else s.getD (s.length - 1) 0

/-- The values sorted ascending (pandas sorts before taking quantiles). -/
def sortedVals (vals : List ℚ) : List ℚ :=
  List.insertionSort (· ≤ ·) vals

/-- The quantile of the value population at probability `p`
(`Series.quantile`, linear interpolation). -/
def quantileAt (vals : List ℚ) (p : ℚ) : ℚ :=
  interp (sortedVals vals) (p * (((sortedVals vals).length : ℚ) - 1))

/-- The 6 bin edges `pd.qcut(vals, 5)` cuts at: quantiles at 0, 1/5, ..., 1. -/
def qcutEdges (vals : List ℚ) : List ℚ :=
  (List.range 6).map fun k : Nat => quantileAt vals ((k : ℚ) / 5)

/-- The 1-based bin a value falls into, given the edges: bins are right-closed
`(e_(j-1), e_j]` and the lowest bin also contains its left edge
(`include_lowest`), so for in-range values the bin index is the number of
edges strictly below the value, with the minimum bumped into bin 1. -/
def cutBin (edges : List ℚ) (v : ℚ) : Nat :=
  max 1 (edges.countP fun e => decide (e < v))

/-- `pd.qcut(vals, 5, labels).astype(int)`: fails like pandas when the bin
edges are not pairwise distinct, otherwise maps each value to the label of
its bin. -/
def qcut (vals : List ℚ) (labels : List Nat) : Except String (List Nat) :=
  if (qcutEdges vals).Nodup then
    .ok (vals.map fun v => labels.getD (cutBin (qcutEdges vals) v - 1) 0)
  else .error "Bin edges must be unique"

/-- `Series.rank(method := first)`: value `i` receives rank
`1 + #(strictly smaller values) + #(equal values at an earlier position)`. -/
def rankFirst (vals : List ℚ) : List ℚ :=
  (List.range vals.length).map fun i =>
    ((1 + (vals.countP fun y => decide (y < vals.getD i 0))
        + ((vals.take i).countP fun y => decide (y = vals.getD i 0)) : Nat) : ℚ)

/-- The row-wise segment classifier (`app.py` lines 77-87): first-match
evaluation of the five rules over the three scores. -/
def segment (r f m : Nat) : String :=
  if 4 ≤ r ∧ 4 ≤ f ∧ 4 ≤ m then "Champion"
  else if 4 ≤ f ∧ 3 ≤ r then "Loyal"
  else if 3 ≤ r then "Fence Sitter"
  else if r = 2 then "At Risk"
  else "Churned"

/-- One fully scored and classified row of the `rfm` dataframe. -/
structure ScoredRow where
  user_id : Nat
  Recency : Int
  Frequency : Nat
  Monetary : ℚ
  R_Score : Nat
  F_Score : Nat
  M_Score : Nat
  Segment : String
deriving Repr, DecidableEq, Inhabited

/-- Lines 56-89 of `app.py`: the three `qcut` scorings (Recency binned on its
raw values with inverted labels, Frequency and Monetary binned on their
first-method ranks with direct labels), then the segment classifier applied
row-wise. -/
def scoreStage (ms : List CustomerMetrics) : Except String (List ScoredRow) := do
  let rs ← qcut (ms.map fun m => (m.Recency : ℚ)) [5, 4, 3, 2, 1]
  let fs ← qcut (rankFirst (ms.map fun m => (m.Frequency : ℚ))) [1, 2, 3, 4, 5]
  let mos ← qcut (rankFirst (ms.map fun m => m.Monetary)) [1, 2, 3, 4, 5]
  .ok ((List.range ms.length).map fun i =>
    let m := ms.getD i default
    let r := rs.getD i 0
    let f := fs.getD i 0
    let mo := mos.getD i 0
    { user_id := m.user_id, Recency := m.Recency, Frequency := m.Frequency
      Monetary := m.Monetary, R_Score := r, F_Score := f, M_Score := mo
      Segment := segment r f mo })

/-- numpy scalar true division: a zero denominator does not raise, it
produces a non-finite float (modelled as `none`) together with a
`RuntimeWarning`. -/
def npDiv (a b : ℚ) : Option ℚ :=
  if b = 0 then none else some (a / b)

/-- The KPI snapshot (`app.py` lines 94-97 and 133). -/
structure KPI where
  total_customers : Nat
  total_revenue : ℚ
  champion_revenue : ℚ
  at_risk_revenue : ℚ
  revenue_dependency : Option ℚ
deriving Repr, DecidableEq, Inhabited

/-- Lines 94-97 and 133 of `app.py`: the revenue rollups and the dependency
ratio, computed from the classified rows. -/
def kpiStage (rows : List ScoredRow) : KPI :=
  let total := (rows.map (·.Monetary)).sum
  let champ := ((rows.filter fun r => r.Segment == "Champion").map (·.Monetary)).sum
  { total_customers := rows.length
    total_revenue := total
    champion_revenue := champ
    at_risk_revenue :=
      ((rows.filter fun r => r.Segment == "At Risk" || r.Segment == "Churned").map
        (·.Monetary)).sum
    revenue_dependency := npDiv champ total }

/-- Everything one analysis run derives from the uploaded orders. -/
structure PipelineOutput where
  metrics : List CustomerMetrics
  scored : List ScoredRow
  kpi : KPI
deriving Repr, DecidableEq, Inhabited

/-- The full batch computation of one run: aggregate, score, classify,
roll up. -/
def pipeline (orders : List OrderRecord) (snapshot_date : Int) :
    Except String PipelineOutput := do
  let rows ← scoreStage (rfm orders snapshot_date)
  .ok { metrics := rfm orders snapshot_date, scored := rows
        kpi := kpiStage rows }

/-! ## Example datasets and outputs used in concrete evaluations -/

/-- A five-customer population whose Recency values all coincide (all
customers last ordered on the same day). -/
def degMetrics : List CustomerMetrics :=
  [⟨1, 3, 1, 10⟩, ⟨2, 3, 2, 20⟩, ⟨3, 3, 3, 30⟩, ⟨4, 3, 4, 40⟩, ⟨5, 3, 5, 50⟩]

/-- A five-customer population with pairwise distinct metric values, the
concrete run used by several witnesses. -/
def exMetrics : List CustomerMetrics :=
  [⟨1, 1, 2, 100⟩, ⟨2, 2, 4, 250⟩, ⟨3, 3, 1, 50⟩, ⟨4, 4, 5, 400⟩, ⟨5, 5, 3, 300⟩]

/-- The scored output of `exMetrics`. -/
def exScored : List ScoredRow :=
  [⟨1, 1, 2, 100, 5, 2, 2, "Fence Sitter"⟩,
   ⟨2, 2, 4, 250, 4, 4, 3, "Loyal"⟩,
   ⟨3, 3, 1, 50, 3, 1, 1, "Fence Sitter"⟩,
   ⟨4, 4, 5, 400, 2, 5, 5, "At Risk"⟩,
   ⟨5, 5, 3, 300, 1, 3, 4, "Churned"⟩]

/-- A five-customer, five-order dataset with positive revenue. -/
def exOrders5 : List OrderRecord :=
  [⟨1, 101, 19, "pizza", 100, 0⟩, ⟨2, 102, 18, "burger", 250, 5⟩,
   ⟨3, 103, 17, "sushi", 50, 0⟩, ⟨4, 104, 16, "taco", 400, 10⟩,
   ⟨5, 105, 15, "wrap", 300, 0⟩]

/-- The pipeline output of `exOrders5` at snapshot day 20. -/
def exOut5 : PipelineOutput :=
  { metrics := [⟨1, 1, 1, 100⟩, ⟨2, 2, 1, 250⟩, ⟨3, 3, 1, 50⟩,
      ⟨4, 4, 1, 400⟩, ⟨5, 5, 1, 300⟩]
    scored := [⟨1, 1, 1, 100, 5, 1, 2, "Fence Sitter"⟩,
      ⟨2, 2, 1, 250, 4, 2, 3, "Fence Sitter"⟩,
      ⟨3, 3, 1, 50, 3, 3, 1, "Fence Sitter"⟩,
      ⟨4, 4, 1, 400, 2, 4, 5, "At Risk"⟩,
      ⟨5, 5, 1, 300, 1, 5, 4, "Churned"⟩]
    kpi := ⟨5, 1100, 0, 700, some 0⟩ }

/-- Five customers whose every order has value zero. -/
def zeroOrders : List OrderRecord :=
  [⟨1, 101, 19, "a", 0, 0⟩, ⟨2, 102, 18, "b", 0, 0⟩, ⟨3, 103, 17, "c", 0, 0⟩,
   ⟨4, 104, 16, "d", 0, 0⟩, ⟨5, 105, 15, "e", 0, 0⟩]

/-- The pipeline output of `zeroOrders` at snapshot day 20: the run succeeds
end to end and the dependency ratio is the non-finite value, not an error. -/
def zeroOut : PipelineOutput :=
  { metrics := [⟨1, 1, 1, 0⟩, ⟨2, 2, 1, 0⟩, ⟨3, 3, 1, 0⟩, ⟨4, 4, 1, 0⟩,
      ⟨5, 5, 1, 0⟩]
    scored := [⟨1, 1, 1, 0, 5, 1, 1, "Fence Sitter"⟩,
      ⟨2, 2, 1, 0, 4, 2, 2, "Fence Sitter"⟩,
      ⟨3, 3, 1, 0, 3, 3, 3, "Fence Sitter"⟩,
      ⟨4, 4, 1, 0, 2, 4, 4, "At Risk"⟩,
      ⟨5, 5, 1, 0, 1, 5, 5, "Churned"⟩]
    kpi := ⟨5, 0, 0, 0, none⟩ }

/-- One order placed on day 13, analysed with snapshot day 10. -/
def negOrders : List OrderRecord := [⟨7, 1, 13, "late", 500, 2⟩]

/-- Four distinct customers with distinct Recency values. -/
def fourOrders : List OrderRecord :=
  [⟨1, 101, 19, "a", 100, 0⟩, ⟨2, 102, 18, "b", 200, 0⟩,
   ⟨3, 103, 17, "c", 300, 0⟩, ⟨4, 104, 16, "d", 400, 0⟩]

/-- The (successful) pipeline output of `fourOrders` at snapshot day 20.
Note the R scores `{5, 4, 2, 1}`: fewer than 5 buckets are occupied, with no
error raised. -/
def fourOut : PipelineOutput :=
  { metrics := [⟨1, 1, 1, 100⟩, ⟨2, 2, 1, 200⟩, ⟨3, 3, 1, 300⟩,
      ⟨4, 4, 1, 400⟩]
    scored := [⟨1, 1, 1, 100, 5, 1, 1, "Fence Sitter"⟩,
      ⟨2, 2, 1, 200, 4, 2, 2, "Fence Sitter"⟩,
      ⟨3, 3, 1, 300, 2, 4, 4, "At Risk"⟩,
      ⟨4, 4, 1, 400, 1, 5, 5, "Churned"⟩]
    kpi := ⟨4, 1000, 0, 700, some 0⟩ }

/-- The fields of an order row that the core logic reads. -/
def stripOrder (r : OrderRecord) : Nat × Nat × Int × ℚ :=
  (r.user_id, r.order_id, r.order_date, r.order_value)

/-- `exOrders5` with every `product_name` and `discount_given` changed. -/
def exOrders5' : List OrderRecord :=
  [⟨1, 101, 19, "XXX", 100, 999⟩, ⟨2, 102, 18, "YYY", 250, 0⟩,
   ⟨3, 103, 17, "ZZZ", 50, 3⟩, ⟨4, 104, 16, "WWW", 400, 1⟩,
   ⟨5, 105, 15, "VVV", 300, 7⟩]

/-- A two-customer example dataset for the aggregator. -/
def exOrders : List OrderRecord :=
  [{ user_id := 7, order_id := 1, order_date := 10, product_name := "pizza",
     order_value := 100, discount_given := 5 },
   { user_id := 3, order_id := 2, order_date := 12, product_name := "burger",
     order_value := 50, discount_given := 0 },
   { user_id := 7, order_id := 3, order_date := 15, product_name := "taco",
     order_value := 25, discount_given := 1 }]

/-! ## Basic facts about the aggregation stage -/

theorem customersOf_nodup (orders : List OrderRecord) : (customersOf orders).Nodup :=
  ((List.perm_insertionSort _ _).nodup_iff).mpr (List.nodup_dedup _)

theorem mem_customersOf {orders : List OrderRecord} {u : Nat} :
    u ∈ customersOf orders ↔ u ∈ orders.map (·.user_id) := by
  unfold customersOf
  rw [(List.perm_insertionSort _ _).mem_iff, List.mem_dedup]

theorem rfm_map_user_id (orders : List OrderRecord) (snap : Int) :
    (rfm orders snap).map (·.user_id) = customersOf orders := by
  unfold rfm
  rw [List.map_map]
  exact List.map_id'' (fun x => rfl) _

theorem mem_rowsOf {orders : List OrderRecord} {u : Nat} {r : OrderRecord} :
    r ∈ rowsOf orders u ↔ r ∈ orders ∧ r.user_id = u := by
  unfold rowsOf
  simp [List.mem_filter]

theorem rowsOf_ne_nil {orders : List OrderRecord} {u : Nat}
    (h : u ∈ orders.map (·.user_id)) : rowsOf orders u ≠ [] := by
  rcases List.mem_map.mp h with ⟨r, hr, hru⟩
  exact List.ne_nil_of_mem (mem_rowsOf.mpr ⟨hr, hru⟩)

/-- The maximum order date of a nonempty row group is attained and dominates
every date in the group. -/
theorem maxDate_spec {dates : List Int} (h : dates ≠ []) :
    ∃ d, dates.max? = some d ∧ d ∈ dates ∧ ∀ d' ∈ dates, d' ≤ d := by
  rcases hd : dates.max? with _ | d
  · exact absurd (List.max?_eq_none_iff.mp hd) h
  · refine ⟨d, rfl, List.max?_mem (fun a b => max_choice a b) hd, ?_⟩
    exact fun d' hd' =>
      (List.max?_le_iff (fun a b c => max_le_iff) hd).mp le_rfl d' hd'

/-! ## Interpolation bounds

The quantile function is a linear interpolation into the sorted value list;
these lemmas locate `interp s h` between the list entries around `⌊h⌋`. -/

theorem getD_le_getD_of_sorted {s : List ℚ} (hs : List.Sorted (· ≤ ·) s)
    {i j : Nat} (hij : i ≤ j) (hj : j < s.length) :
    s.getD i 0 ≤ s.getD j 0 := by
  rcases eq_or_lt_of_le hij with rfl | hlt
  · exact le_rfl
  · rw [List.getD_eq_get _ _ (lt_trans hlt hj), List.getD_eq_get _ _ hj]
    exact hs.rel_get_of_lt hlt

theorem getD_lt_getD_of_strict {s : List ℚ} (hs : List.Sorted (· < ·) s)
    {i j : Nat} (hij : i < j) (hj : j < s.length) :
    s.getD i 0 < s.getD j 0 := by
  rw [List.getD_eq_get _ _ (lt_trans hij hj), List.getD_eq_get _ _ hj]
  exact hs.rel_get_of_lt hij

theorem interp_eq {s : List ℚ} {h : ℚ} (hb : ⌊h⌋₊ + 1 < s.length) :
    interp s h =
      s.getD ⌊h⌋₊ 0 + (h - (⌊h⌋₊ : ℚ)) * (s.getD (⌊h⌋₊ + 1) 0 - s.getD ⌊h⌋₊ 0) := by
  unfold interp
  rw [if_pos hb]

theorem interp_eq_last {s : List ℚ} {h : ℚ} (hb : ¬(⌊h⌋₊ + 1 < s.length)) :
    interp s h = s.getD (s.length - 1) 0 := by
  unfold interp
  rw [if_neg hb]

theorem length_pos_of_range {s : List ℚ} {h : ℚ} (h0 : 0 ≤ h)
    (hn : h ≤ (s.length : ℚ) - 1) : 0 < s.length := by
  rcases Nat.eq_zero_or_pos s.length with he | hp
  · rw [he] at hn
    norm_num at hn
    linarith
  · exact hp

theorem cast_length_sub_one {s : List ℚ} (hp : 0 < s.length) :
    ((s.length - 1 : Nat) : ℚ) = (s.length : ℚ) - 1 := by
  rw [Nat.cast_sub hp, Nat.cast_one]

theorem floor_le_length_sub_one {s : List ℚ} {h : ℚ}
    (hn : h ≤ (s.length : ℚ) - 1) (hp : 0 < s.length) :
    ⌊h⌋₊ ≤ s.length - 1 := by
  have h1 : h ≤ ((s.length - 1 : Nat) : ℚ) := by rw [cast_length_sub_one hp]; exact hn
  have := Nat.floor_le_floor h1
  rwa [Nat.floor_natCast] at this

/-- A list entry whose index is at most `h` lies below the interpolated
value. -/
theorem getD_le_interp {s : List ℚ} (hs : List.Sorted (· ≤ ·) s) {h : ℚ}
    (h0 : 0 ≤ h) (hn : h ≤ (s.length : ℚ) - 1) {t : Nat} (hth : (t : ℚ) ≤ h) :
    s.getD t 0 ≤ interp s h := by
  have hp := length_pos_of_range h0 hn
  have hib : ⌊h⌋₊ ≤ s.length - 1 := floor_le_length_sub_one hn hp
  have hti : t ≤ ⌊h⌋₊ := Nat.le_floor hth
  by_cases hb : ⌊h⌋₊ + 1 < s.length
  · rw [interp_eq hb]
    have hgap : s.getD ⌊h⌋₊ 0 ≤ s.getD (⌊h⌋₊ + 1) 0 :=
      getD_le_getD_of_sorted hs (Nat.le_succ _) hb
    have h1 : s.getD t 0 ≤ s.getD ⌊h⌋₊ 0 :=
      getD_le_getD_of_sorted hs hti (Nat.lt_of_succ_lt hb)
    have h2 : 0 ≤ (h - (⌊h⌋₊ : ℚ)) * (s.getD (⌊h⌋₊ + 1) 0 - s.getD ⌊h⌋₊ 0) :=
      mul_nonneg (by linarith [Nat.floor_le h0]) (by linarith)
    linarith
  · rw [interp_eq_last hb]
    exact getD_le_getD_of_sorted hs (hti.trans hib) (Nat.sub_lt hp one_pos)

/-- On a strictly sorted list, a list entry whose index strictly exceeds `h`
lies strictly above the interpolated value. -/
theorem interp_lt_getD {s : List ℚ} (hs : List.Sorted (· < ·) s) {h : ℚ}
    (h0 : 0 ≤ h) (hn : h ≤ (s.length : ℚ) - 1) {t : Nat} (ht : t < s.length)
    (hth : h < (t : ℚ)) : interp s h < s.getD t 0 := by
  have hp := length_pos_of_range h0 hn
  have hib : ⌊h⌋₊ ≤ s.length - 1 := floor_le_length_sub_one hn hp
  have hit : ⌊h⌋₊ < t := by
    have : (⌊h⌋₊ : ℚ) < (t : ℚ) := lt_of_le_of_lt (Nat.floor_le h0) hth
    exact_mod_cast this
  by_cases hb : ⌊h⌋₊ + 1 < s.length
  · rw [interp_eq hb]
    have hgap : s.getD ⌊h⌋₊ 0 < s.getD (⌊h⌋₊ + 1) 0 :=
      getD_lt_getD_of_strict hs (Nat.lt_succ_self _) hb
    have hfrac1 : h - (⌊h⌋₊ : ℚ) < 1 := by linarith [Nat.lt_floor_add_one h]
    have hfrac0 : 0 ≤ h - (⌊h⌋₊ : ℚ) := by linarith [Nat.floor_le h0]
    have step : s.getD ⌊h⌋₊ 0 + (h - (⌊h⌋₊ : ℚ)) *
        (s.getD (⌊h⌋₊ + 1) 0 - s.getD ⌊h⌋₊ 0) < s.getD (⌊h⌋₊ + 1) 0 := by
      nlinarith [mul_pos (by linarith : (0:ℚ) < 1 - (h - (⌊h⌋₊ : ℚ)))
        (by linarith : (0:ℚ) < s.getD (⌊h⌋₊ + 1) 0 - s.getD ⌊h⌋₊ 0)]
    exact lt_of_lt_of_le step (getD_le_getD_of_sorted hs.le_of_lt hit ht)
  · exfalso
    push_neg at hb
    omega

/-- The interpolated value never exceeds the last entry of the sorted list. -/
theorem interp_le_last {s : List ℚ} (hs : List.Sorted (· ≤ ·) s) {h : ℚ}
    (h0 : 0 ≤ h) (hn : h ≤ (s.length : ℚ) - 1) :
    interp s h ≤ s.getD (s.length - 1) 0 := by
  have hp := length_pos_of_range h0 hn
  have hib : ⌊h⌋₊ ≤ s.length - 1 := floor_le_length_sub_one hn hp
  by_cases hb : ⌊h⌋₊ + 1 < s.length
  · rw [interp_eq hb]
    have hgap : s.getD ⌊h⌋₊ 0 ≤ s.getD (⌊h⌋₊ + 1) 0 :=
      getD_le_getD_of_sorted hs (Nat.le_succ _) hb
    have hlast1 : s.getD (⌊h⌋₊ + 1) 0 ≤ s.getD (s.length - 1) 0 :=
      getD_le_getD_of_sorted hs (by omega) (Nat.sub_lt hp one_pos)
    have hfrac1 : h - (⌊h⌋₊ : ℚ) < 1 := by linarith [Nat.lt_floor_add_one h]
    have hfrac0 : 0 ≤ h - (⌊h⌋₊ : ℚ) := by linarith [Nat.floor_le h0]
    nlinarith [mul_nonneg hfrac0 (by linarith : (0:ℚ) ≤ s.getD (⌊h⌋₊ + 1) 0 - s.getD ⌊h⌋₊ 0)]
  · rw [interp_eq_last hb]

theorem interp_zero {s : List ℚ} : interp s 0 = s.getD 0 0 := by
  by_cases hb : ⌊(0:ℚ)⌋₊ + 1 < s.length
  · rw [interp_eq hb]
    simp
  · rw [interp_eq_last hb]
    rw [Nat.floor_zero] at hb
    congr 1
    omega

theorem interp_last_index {s : List ℚ} (hp : 0 < s.length) :
    interp s ((s.length : ℚ) - 1) = s.getD (s.length - 1) 0 := by
  have hfl : ⌊(s.length : ℚ) - 1⌋₊ = s.length - 1 := by
    rw [← cast_length_sub_one hp, Nat.floor_natCast]
  have hb : ¬(⌊(s.length : ℚ) - 1⌋₊ + 1 < s.length) := by omega
  rw [interp_eq_last hb]

/-- Strict monotonicity of interpolation on a strictly sorted list. -/
theorem interp_lt_interp {s : List ℚ} (hs : List.Sorted (· < ·) s) {h h' : ℚ}
    (h0 : 0 ≤ h) (hh : h < h') (hn : h' ≤ (s.length : ℚ) - 1) :
    interp s h < interp s h' := by
  have h0' : 0 ≤ h' := h0.trans hh.le
  have hp := length_pos_of_range h0' hn
  have hib' : ⌊h'⌋₊ ≤ s.length - 1 := floor_le_length_sub_one hn hp
  rcases Nat.lt_or_ge ⌊h⌋₊ ⌊h'⌋₊ with hc | hc
  · have ht : ⌊h⌋₊ + 1 < s.length := by omega
    have h1 : interp s h < s.getD (⌊h⌋₊ + 1) 0 :=
      interp_lt_getD hs h0 (le_of_lt (lt_of_lt_of_le hh hn))
        ht (by exact_mod_cast Nat.lt_floor_add_one h)
    have h2 : s.getD (⌊h⌋₊ + 1) 0 ≤ interp s h' := by
      refine getD_le_interp hs.le_of_lt h0' hn ?_
      have : ((⌊h⌋₊ + 1 : Nat) : ℚ) ≤ (⌊h'⌋₊ : ℚ) := by exact_mod_cast hc
      calc ((⌊h⌋₊ + 1 : Nat) : ℚ) ≤ (⌊h'⌋₊ : ℚ) := this
        _ ≤ h' := Nat.floor_le h0'
    calc interp s h < s.getD (⌊h⌋₊ + 1) 0 := h1
      _ ≤ interp s h' := h2
  · have heq : ⌊h'⌋₊ = ⌊h⌋₊ := le_antisymm hc (Nat.floor_le_floor hh.le)
    by_cases hb : ⌊h⌋₊ + 1 < s.length
    · have hb' : ⌊h'⌋₊ + 1 < s.length := by rw [heq]; exact hb
      rw [interp_eq hb, interp_eq hb']
      rw [heq]
      have hgap : s.getD ⌊h⌋₊ 0 < s.getD (⌊h⌋₊ + 1) 0 :=
        getD_lt_getD_of_strict hs (Nat.lt_succ_self _) hb
      nlinarith [mul_pos (by linarith : (0:ℚ) < h' - h) (by linarith :
        (0:ℚ) < s.getD (⌊h⌋₊ + 1) 0 - s.getD ⌊h⌋₊ 0)]
    · exfalso
      have hieq : ⌊h⌋₊ = s.length - 1 := by
        have : ⌊h⌋₊ ≤ s.length - 1 := by omega
        omega
      have hfl : ((s.length : ℚ) - 1) ≤ h := by
        rw [← cast_length_sub_one hp, ← hieq]
        exact Nat.floor_le h0
      linarith

/-! ## Sorted values and bin edges -/

theorem sortedVals_perm (vals : List ℚ) : (sortedVals vals).Perm vals :=
  List.perm_insertionSort _ _

theorem sortedVals_sorted (vals : List ℚ) :
    List.Sorted (· ≤ ·) (sortedVals vals) :=
  List.sorted_insertionSort _ _

theorem sortedVals_length (vals : List ℚ) :
    (sortedVals vals).length = vals.length :=
  (sortedVals_perm vals).length_eq

theorem sortedVals_strict (vals : List ℚ) (h : vals.Nodup) :
    List.Sorted (· < ·) (sortedVals vals) :=
  (sortedVals_sorted vals).lt_of_le ((sortedVals_perm vals).nodup_iff.mpr h)

theorem mem_sortedVals {vals : List ℚ} {v : ℚ} :
    v ∈ sortedVals vals ↔ v ∈ vals :=
  (sortedVals_perm vals).mem_iff

/-- The probability-times-span index is within the interpolation range. -/
theorem hk_bounds {n : Nat} (hp : 0 < n) {k : Nat} (hk : k ≤ 5) :
    0 ≤ (k : ℚ) / 5 * ((n : ℚ) - 1) ∧
      (k : ℚ) / 5 * ((n : ℚ) - 1) ≤ (n : ℚ) - 1 := by
  have hn1 : (1 : ℚ) ≤ (n : ℚ) := by exact_mod_cast hp
  have hk5 : (k : ℚ) ≤ 5 := by exact_mod_cast hk
  have hk0 : (0 : ℚ) ≤ (k : ℚ) := by positivity
  constructor
  · apply mul_nonneg (by positivity) (by linarith)
  · exact mul_le_of_le_one_left (by linarith) (by linarith)

/-- The sorted list's first entry is a lower bound for every value. -/
theorem first_le_mem {vals : List ℚ} {v : ℚ} (hv : v ∈ vals) :
    (sortedVals vals).getD 0 0 ≤ v := by
  rcases List.mem_iff_get.mp (mem_sortedVals.mpr hv) with ⟨t, ht⟩
  rw [← ht, ← List.getD_eq_get _ 0 t.isLt]
  exact getD_le_getD_of_sorted (sortedVals_sorted vals) (Nat.zero_le _) t.isLt

/-- The sorted list's last entry is an upper bound for every value. -/
theorem mem_le_last {vals : List ℚ} {v : ℚ} (hv : v ∈ vals) :
    v ≤ (sortedVals vals).getD ((sortedVals vals).length - 1) 0 := by
  rcases List.mem_iff_get.mp (mem_sortedVals.mpr hv) with ⟨t, ht⟩
  have hp : 0 < (sortedVals vals).length := lt_of_le_of_lt (Nat.zero_le _) t.isLt
  rw [← ht, ← List.getD_eq_get _ 0 t.isLt]
  exact getD_le_getD_of_sorted (sortedVals_sorted vals) (by omega)
    (Nat.sub_lt hp one_pos)

/-- The six bin edges, written out. -/
theorem qcutEdges_eq (vals : List ℚ) :
    qcutEdges vals =
      [quantileAt vals (((0 : Nat) : ℚ) / 5), quantileAt vals (((1 : Nat) : ℚ) / 5),
       quantileAt vals (((2 : Nat) : ℚ) / 5), quantileAt vals (((3 : Nat) : ℚ) / 5),
       quantileAt vals (((4 : Nat) : ℚ) / 5), quantileAt vals (((5 : Nat) : ℚ) / 5)] := rfl

/-- Every bin edge is a quantile at some `k/5`, `k ≤ 5`. -/
theorem mem_qcutEdges {vals : List ℚ} {e : ℚ} (he : e ∈ qcutEdges vals) :
    ∃ k : Nat, k ≤ 5 ∧ e = quantileAt vals ((k : ℚ) / 5) := by
  rw [qcutEdges_eq] at he
  simp only [List.mem_cons, List.not_mem_nil, or_false] at he
  rcases he with h | h | h | h | h | h
  exacts [⟨0, by norm_num, h⟩, ⟨1, by norm_num, h⟩, ⟨2, by norm_num, h⟩,
    ⟨3, by norm_num, h⟩, ⟨4, by norm_num, h⟩, ⟨5, le_rfl, h⟩]

/-- Every bin edge lies above the minimum value of the population. -/
theorem first_le_quantile {vals : List ℚ} (hp : 0 < vals.length) {k : Nat}
    (hk : k ≤ 5) :
    (sortedVals vals).getD 0 0 ≤ quantileAt vals ((k : ℚ) / 5) := by
  have hp' : 0 < (sortedVals vals).length := by rw [sortedVals_length]; exact hp
  obtain ⟨h0, h1⟩ := hk_bounds hp' hk
  exact getD_le_interp (sortedVals_sorted vals) h0 h1 (by exact_mod_cast h0)

/-- Every bin edge lies below the maximum value of the population. -/
theorem quantile_le_last {vals : List ℚ} (hp : 0 < vals.length) {k : Nat}
    (hk : k ≤ 5) :
    quantileAt vals ((k : ℚ) / 5) ≤
      (sortedVals vals).getD ((sortedVals vals).length - 1) 0 := by
  have hp' : 0 < (sortedVals vals).length := by rw [sortedVals_length]; exact hp
  obtain ⟨h0, h1⟩ := hk_bounds hp' hk
  exact interp_le_last (sortedVals_sorted vals) h0 h1

/-- The top bin edge is exactly the maximum value of the population. -/
theorem quantile_last_eq {vals : List ℚ} (hp : 0 < vals.length) :
    quantileAt vals (((5 : Nat) : ℚ) / 5) =
      (sortedVals vals).getD ((sortedVals vals).length - 1) 0 := by
  have hp' : 0 < (sortedVals vals).length := by rw [sortedVals_length]; exact hp
  have h55 : (((5 : Nat) : ℚ) / 5) = 1 := by norm_num
  unfold quantileAt
  rw [h55, one_mul]
  exact interp_last_index hp'

/-! ## Bin placement -/

theorem cutBin_pos (edges : List ℚ) (v : ℚ) : 1 ≤ cutBin edges v :=
  le_max_left _ _

theorem cutBin_mono (edges : List ℚ) {v w : ℚ} (hvw : v ≤ w) :
    cutBin edges v ≤ cutBin edges w := by
  unfold cutBin
  apply max_le_max le_rfl
  refine List.countP_mono_left fun e _ he => ?_
  exact decide_eq_true (lt_of_lt_of_le (of_decide_eq_true he) hvw)

/-- A value below every edge except possibly the bottom one falls in bin 1:
in particular the population minimum does. -/
theorem cutBin_eq_one {vals : List ℚ} {v : ℚ} (hv : v ∈ vals)
    (hlb : ∀ w ∈ vals, v ≤ w) : cutBin (qcutEdges vals) v = 1 := by
  have hp : 0 < vals.length := List.length_pos.mpr (List.ne_nil_of_mem hv)
  have hcount : (qcutEdges vals).countP (fun e => decide (e < v)) = 0 := by
    rw [List.countP_eq_zero]
    intro e he
    rcases mem_qcutEdges he with ⟨k, hk, rfl⟩
    have h0mem : (sortedVals vals).getD 0 0 ∈ vals := by
      rw [List.getD_eq_get _ 0 (by rw [sortedVals_length]; exact hp)]
      exact mem_sortedVals.mp (List.get_mem _ _ _)
    have : v ≤ quantileAt vals ((k : ℚ) / 5) :=
      le_trans (hlb _ h0mem) (first_le_quantile hp hk)
    simpa using not_lt.mpr this
  unfold cutBin
  rw [hcount]
  omega

/-- When the edges are pairwise distinct, the population maximum falls in
bin 5. -/
theorem cutBin_eq_five {vals : List ℚ} (hnd : (qcutEdges vals).Nodup)
    {v : ℚ} (hv : v ∈ vals) (hub : ∀ w ∈ vals, w ≤ v) :
    cutBin (qcutEdges vals) v = 5 := by
  have hp : 0 < vals.length := List.length_pos.mpr (List.ne_nil_of_mem hv)
  have hlastmem : (sortedVals vals).getD ((sortedVals vals).length - 1) 0 ∈ vals := by
    have hp' : 0 < (sortedVals vals).length := by rw [sortedVals_length]; exact hp
    rw [List.getD_eq_get _ 0 (Nat.sub_lt hp' one_pos)]
    exact mem_sortedVals.mp (List.get_mem _ _ _)
  have hveq : v = (sortedVals vals).getD ((sortedVals vals).length - 1) 0 :=
    le_antisymm (mem_le_last hv) (hub _ hlastmem)
  have h5 : quantileAt vals (((5 : Nat) : ℚ) / 5) = v := by
    rw [quantile_last_eq hp, ← hveq]
  have hle : ∀ k : Nat, k ≤ 5 → quantileAt vals ((k : ℚ) / 5) ≤ v := by
    intro k hk
    rw [hveq]
    exact quantile_le_last hp hk
  rw [qcutEdges_eq] at hnd ⊢
  simp only [List.nodup_cons, List.mem_cons, List.mem_singleton,
    List.not_mem_nil, or_false, not_or] at hnd
  obtain ⟨⟨-, -, -, -, h05⟩, ⟨-, -, -, h15⟩, ⟨-, -, h25⟩, ⟨-, h35⟩, h45, -⟩ := hnd
  have hlt0 := lt_of_le_of_ne (hle 0 (by norm_num)) (by rw [← h5]; exact h05)
  have hlt1 := lt_of_le_of_ne (hle 1 (by norm_num)) (by rw [← h5]; exact h15)
  have hlt2 := lt_of_le_of_ne (hle 2 (by norm_num)) (by rw [← h5]; exact h25)
  have hlt3 := lt_of_le_of_ne (hle 3 (by norm_num)) (by rw [← h5]; exact h35)
  have hlt4 := lt_of_le_of_ne (hle 4 (by norm_num)) (by rw [← h5]; exact h45)
  have hnot5 : ¬ quantileAt vals (((5 : Nat) : ℚ) / 5) < v := by
    rw [h5]; exact lt_irrefl v
  unfold cutBin
  simp only [List.countP_cons, List.countP_nil, decide_eq_true_eq]
  rw [if_pos hlt0, if_pos hlt1, if_pos hlt2, if_pos hlt3, if_pos hlt4,
    if_neg hnot5]
  rfl

/-- Every value of the population falls in one of the five bins. -/
theorem cutBin_le_five {vals : List ℚ} {v : ℚ} (hv : v ∈ vals) :
    cutBin (qcutEdges vals) v ≤ 5 := by
  have hp : 0 < vals.length := List.length_pos.mpr (List.ne_nil_of_mem hv)
  have hnot5 : ¬ quantileAt vals (((5 : Nat) : ℚ) / 5) < v := by
    rw [quantile_last_eq hp]
    exact not_lt.mpr (mem_le_last hv)
  unfold cutBin
  rw [qcutEdges_eq]
  simp only [List.countP_cons, List.countP_nil, hnot5, decide_eq_true_eq]
  split_ifs <;> simp_all <;> omega

/-! ## Label lookup -/

theorem labelInv_getD {b : Nat} (h1 : 1 ≤ b) (h5 : b ≤ 5) :
    [5, 4, 3, 2, 1].getD (b - 1) 0 = 6 - b := by
  interval_cases b <;> rfl

theorem labelDirect_getD {b : Nat} (h1 : 1 ≤ b) (h5 : b ≤ 5) :
    [1, 2, 3, 4, 5].getD (b - 1) 0 = b := by
  interval_cases b <;> rfl

/-! ## Inversion of the scoring stage -/

theorem except_bind_ok {ε α β : Type} (x : α) (f : α → Except ε β) :
    (Except.ok x : Except ε α) >>= f = f x := rfl

theorem except_bind_error {ε α β : Type} (e : ε) (f : α → Except ε β) :
    (Except.error e : Except ε α) >>= f = Except.error e := rfl

theorem qcut_inv {vals : List ℚ} {labels rs : List Nat}
    (h : qcut vals labels = .ok rs) :
    (qcutEdges vals).Nodup ∧
      rs = vals.map fun v => labels.getD (cutBin (qcutEdges vals) v - 1) 0 := by
  unfold qcut at h
  split_ifs at h with hnd
  exact ⟨hnd, by injection h with h; exact h.symm⟩

theorem qcut_ok {vals : List ℚ} {labels : List Nat}
    (hnd : (qcutEdges vals).Nodup) :
    qcut vals labels =
      .ok (vals.map fun v => labels.getD (cutBin (qcutEdges vals) v - 1) 0) := by
  unfold qcut
  rw [if_pos hnd]

theorem scoreStage_inv {ms : List CustomerMetrics} {out : List ScoredRow}
    (h : scoreStage ms = .ok out) :
    ∃ rs fs mos : List Nat,
      qcut (ms.map fun m => (m.Recency : ℚ)) [5, 4, 3, 2, 1] = .ok rs ∧
      qcut (rankFirst (ms.map fun m => (m.Frequency : ℚ))) [1, 2, 3, 4, 5] = .ok fs ∧
      qcut (rankFirst (ms.map fun m => m.Monetary)) [1, 2, 3, 4, 5] = .ok mos ∧
      out = (List.range ms.length).map fun i =>
        { user_id := (ms.getD i default).user_id
          Recency := (ms.getD i default).Recency
          Frequency := (ms.getD i default).Frequency
          Monetary := (ms.getD i default).Monetary
          R_Score := rs.getD i 0
          F_Score := fs.getD i 0
          M_Score := mos.getD i 0
          Segment := segment (rs.getD i 0) (fs.getD i 0) (mos.getD i 0) } := by
  unfold scoreStage at h
  rcases hR : qcut (ms.map fun m => (m.Recency : ℚ)) [5, 4, 3, 2, 1] with eR | rs
  · rw [hR, except_bind_error] at h; exact Except.noConfusion h
  rw [hR, except_bind_ok] at h
  rcases hF : qcut (rankFirst (ms.map fun m => (m.Frequency : ℚ))) [1, 2, 3, 4, 5] with eF | fs
  · rw [hF, except_bind_error] at h; exact Except.noConfusion h
  rw [hF, except_bind_ok] at h
  rcases hM : qcut (rankFirst (ms.map fun m => m.Monetary)) [1, 2, 3, 4, 5] with eM | mos
  · rw [hM, except_bind_error] at h; exact Except.noConfusion h
  rw [hM, except_bind_ok] at h
  injection h with h
  exact ⟨rs, fs, mos, hR, hF, hM, h.symm⟩

theorem scoreStage_eq_ok {ms : List CustomerMetrics}
    (hR : (qcutEdges (ms.map fun m => (m.Recency : ℚ))).Nodup)
    (hF : (qcutEdges (rankFirst (ms.map fun m => (m.Frequency : ℚ)))).Nodup)
    (hM : (qcutEdges (rankFirst (ms.map fun m => m.Monetary))).Nodup) :
    ∃ out, scoreStage ms = .ok out := by
  unfold scoreStage
  rw [qcut_ok hR, except_bind_ok, qcut_ok hF, except_bind_ok, qcut_ok hM,
    except_bind_ok]
  exact ⟨_, rfl⟩

/-! ## Order structure of successful quantile scorings -/

theorem getD_map_of_lt {α β : Type} (f : α → β) (l : List α) {i : Nat}
    (hi : i < l.length) (d : β) (d' : α) : (l.map f).getD i d = f (l.getD i d') := by
  rw [List.getD_eq_getElem _ _ (by simpa using hi), List.getD_eq_getElem _ _ hi,
    List.getElem_map]

theorem getD_mem_of_lt {l : List ℚ} {i : Nat} (hi : i < l.length) :
    l.getD i 0 ∈ l := by
  rw [List.getD_eq_getElem _ _ hi]
  exact List.getElem_mem _

theorem range_getD {n i : Nat} (hi : i < n) : (List.range n).getD i 0 = i := by
  rw [List.getD_eq_getElem _ _ (by simpa using hi)]
  exact List.getElem_range _ _

theorem rankFirst_length (vals : List ℚ) :
    (rankFirst vals).length = vals.length := by
  simp [rankFirst]

/-- Facts about a successful direct-labelled scoring (`labels = [1..5]`):
scores are monotone in the value, the population minimum scores 1 and the
population maximum scores 5. -/
theorem direct_qcut_facts {vals : List ℚ} {qs : List Nat}
    (h : qcut vals [1, 2, 3, 4, 5] = .ok qs) :
    (∀ i j, i < vals.length → j < vals.length →
      vals.getD i 0 ≤ vals.getD j 0 → qs.getD i 0 ≤ qs.getD j 0) ∧
    (∀ i, i < vals.length → (∀ w ∈ vals, vals.getD i 0 ≤ w) → qs.getD i 0 = 1) ∧
    (∀ i, i < vals.length → (∀ w ∈ vals, w ≤ vals.getD i 0) → qs.getD i 0 = 5) := by
  obtain ⟨hnd, hqs⟩ := qcut_inv h
  have hq : ∀ i, i < vals.length → qs.getD i 0 =
      [1, 2, 3, 4, 5].getD (cutBin (qcutEdges vals) (vals.getD i 0) - 1) 0 := by
    intro i hi
    rw [hqs]
    exact getD_map_of_lt _ _ hi _ 0
  refine ⟨fun i j hi hj hle => ?_, fun i hi hlb => ?_, fun i hi hub => ?_⟩
  · rw [hq i hi, hq j hj,
      labelDirect_getD (cutBin_pos _ _) (cutBin_le_five (getD_mem_of_lt hi)),
      labelDirect_getD (cutBin_pos _ _) (cutBin_le_five (getD_mem_of_lt hj))]
    exact cutBin_mono _ hle
  · rw [hq i hi,
      labelDirect_getD (cutBin_pos _ _) (cutBin_le_five (getD_mem_of_lt hi))]
    exact cutBin_eq_one (getD_mem_of_lt hi) hlb
  · rw [hq i hi,
      labelDirect_getD (cutBin_pos _ _) (cutBin_le_five (getD_mem_of_lt hi))]
    exact cutBin_eq_five hnd (getD_mem_of_lt hi) hub

/-- Facts about a successful inverse-labelled scoring (`labels = [5..1]`,
used for Recency): scores are antitone in the value, the population minimum
scores 5 and the population maximum scores 1. -/
theorem inv_qcut_facts {vals : List ℚ} {qs : List Nat}
    (h : qcut vals [5, 4, 3, 2, 1] = .ok qs) :
    (∀ i j, i < vals.length → j < vals.length →
      vals.getD i 0 ≤ vals.getD j 0 → qs.getD j 0 ≤ qs.getD i 0) ∧
    (∀ i, i < vals.length → (∀ w ∈ vals, vals.getD i 0 ≤ w) → qs.getD i 0 = 5) ∧
    (∀ i, i < vals.length → (∀ w ∈ vals, w ≤ vals.getD i 0) → qs.getD i 0 = 1) := by
  obtain ⟨hnd, hqs⟩ := qcut_inv h
  have hq : ∀ i, i < vals.length → qs.getD i 0 =
      [5, 4, 3, 2, 1].getD (cutBin (qcutEdges vals) (vals.getD i 0) - 1) 0 := by
    intro i hi
    rw [hqs]
    exact getD_map_of_lt _ _ hi _ 0
  refine ⟨fun i j hi hj hle => ?_, fun i hi hlb => ?_, fun i hi hub => ?_⟩
  · rw [hq i hi, hq j hj,
      labelInv_getD (cutBin_pos _ _) (cutBin_le_five (getD_mem_of_lt hi)),
      labelInv_getD (cutBin_pos _ _) (cutBin_le_five (getD_mem_of_lt hj))]
    have := cutBin_mono (qcutEdges vals) hle
    omega
  · rw [hq i hi,
      labelInv_getD (cutBin_pos _ _) (cutBin_le_five (getD_mem_of_lt hi))]
    rw [cutBin_eq_one (getD_mem_of_lt hi) hlb]
  · rw [hq i hi,
      labelInv_getD (cutBin_pos _ _) (cutBin_le_five (getD_mem_of_lt hi))]
    rw [cutBin_eq_five hnd (getD_mem_of_lt hi) hub]

/-! ## C3: Recency inversion, direct Frequency and Monetary mapping -/

/-- C3: whenever the quantile scoring stage succeeds, Recency scoring is
inverted and monotone (any customer with minimal Recency gets `R_Score = 5`,
any with maximal Recency gets `R_Score = 1`, and a smaller Recency never
yields a smaller `R_Score`), while Frequency and Monetary map their
tie-broken ranks directly (minimal rank scores 1, maximal rank scores 5,
monotonically). -/
theorem C3_recency_inverted_fm_direct (ms : List CustomerMetrics)
    (out : List ScoredRow) (h : scoreStage ms = .ok out) :
    ((∀ a ∈ out, ∀ b ∈ out, a.Recency ≤ b.Recency → b.R_Score ≤ a.R_Score) ∧
     (∀ a ∈ out, (∀ b ∈ out, a.Recency ≤ b.Recency) → a.R_Score = 5) ∧
     (∀ a ∈ out, (∀ b ∈ out, b.Recency ≤ a.Recency) → a.R_Score = 1)) ∧
    ((∀ i j, i < ms.length → j < ms.length →
       (rankFirst (ms.map fun m => (m.Frequency : ℚ))).getD i 0 ≤
         (rankFirst (ms.map fun m => (m.Frequency : ℚ))).getD j 0 →
       (out.getD i default).F_Score ≤ (out.getD j default).F_Score) ∧
     (∀ i, i < ms.length →
       (∀ j, j < ms.length →
         (rankFirst (ms.map fun m => (m.Frequency : ℚ))).getD i 0 ≤
           (rankFirst (ms.map fun m => (m.Frequency : ℚ))).getD j 0) →
       (out.getD i default).F_Score = 1) ∧
     (∀ i, i < ms.length →
       (∀ j, j < ms.length →
         (rankFirst (ms.map fun m => (m.Frequency : ℚ))).getD j 0 ≤
           (rankFirst (ms.map fun m => (m.Frequency : ℚ))).getD i 0) →
       (out.getD i default).F_Score = 5)) ∧
    ((∀ i j, i < ms.length → j < ms.length →
       (rankFirst (ms.map fun m => m.Monetary)).getD i 0 ≤
         (rankFirst (ms.map fun m => m.Monetary)).getD j 0 →
       (out.getD i default).M_Score ≤ (out.getD j default).M_Score) ∧
     (∀ i, i < ms.length →
       (∀ j, j < ms.length →
         (rankFirst (ms.map fun m => m.Monetary)).getD i 0 ≤
           (rankFirst (ms.map fun m => m.Monetary)).getD j 0) →
       (out.getD i default).M_Score = 1) ∧
     (∀ i, i < ms.length →
       (∀ j, j < ms.length →
         (rankFirst (ms.map fun m => m.Monetary)).getD j 0 ≤
           (rankFirst (ms.map fun m => m.Monetary)).getD i 0) →
       (out.getD i default).M_Score = 5)) := by
  obtain ⟨rs, fs, mos, hR, hF, hM, hout⟩ := scoreStage_inv h
  have hvRlen : (ms.map fun m => (m.Recency : ℚ)).length = ms.length := by simp
  have hfrlen : (rankFirst (ms.map fun m => (m.Frequency : ℚ))).length = ms.length := by
    rw [rankFirst_length]; simp
  have hmrlen : (rankFirst (ms.map fun m => m.Monetary)).length = ms.length := by
    rw [rankFirst_length]; simp
  have hmem : ∀ a ∈ out, ∃ i, i < ms.length ∧
      a.Recency = (ms.getD i default).Recency ∧ a.R_Score = rs.getD i 0 := by
    intro a ha
    rw [hout] at ha
    rcases List.mem_map.mp ha with ⟨i, hi, hb⟩
    exact ⟨i, List.mem_range.mp hi, by rw [← hb], by rw [← hb]⟩
  have hcov : ∀ i, i < ms.length →
      ∃ b ∈ out, b.Recency = (ms.getD i default).Recency := by
    intro i hi
    rw [hout]
    exact ⟨_, List.mem_map.mpr ⟨i, List.mem_range.mpr hi, rfl⟩, rfl⟩
  have hvR : ∀ i, i < ms.length →
      (ms.map fun m => (m.Recency : ℚ)).getD i 0 = ((ms.getD i default).Recency : ℚ) := by
    intro i hi
    exact getD_map_of_lt _ _ hi _ default
  have houtD : ∀ i, i < ms.length →
      (out.getD i default).F_Score = fs.getD i 0 ∧
      (out.getD i default).M_Score = mos.getD i 0 := by
    intro i hi
    rw [hout, getD_map_of_lt _ _ (by simpa using hi) _ 0, range_getD hi]
    exact ⟨rfl, rfl⟩
  have hminR : ∀ a ∈ out, (∀ b ∈ out, a.Recency ≤ b.Recency) →
      ∃ i, i < ms.length ∧ a.R_Score = rs.getD i 0 ∧
        (∀ w ∈ (ms.map fun m => (m.Recency : ℚ)),
          (ms.map fun m => (m.Recency : ℚ)).getD i 0 ≤ w) := by
    intro a ha hmin
    obtain ⟨i, hi, haR, haS⟩ := hmem a ha
    refine ⟨i, hi, haS, fun w hw => ?_⟩
    rcases List.mem_map.mp hw with ⟨m, hmval, rfl⟩
    rcases List.mem_iff_get.mp hmval with ⟨t, ht⟩
    obtain ⟨b, hb, hbR⟩ := hcov t.1 t.isLt
    have hmt : (ms.getD t.1 default).Recency = m.Recency := by
      rw [List.getD_eq_get _ _ t.isLt, ht]
    rw [hvR i hi, ← haR]
    have : a.Recency ≤ m.Recency := by
      have := hmin b hb
      rw [hbR, hmt] at this
      exact this
    exact_mod_cast this
  have hmaxR : ∀ a ∈ out, (∀ b ∈ out, b.Recency ≤ a.Recency) →
      ∃ i, i < ms.length ∧ a.R_Score = rs.getD i 0 ∧
        (∀ w ∈ (ms.map fun m => (m.Recency : ℚ)),
          w ≤ (ms.map fun m => (m.Recency : ℚ)).getD i 0) := by
    intro a ha hmax
    obtain ⟨i, hi, haR, haS⟩ := hmem a ha
    refine ⟨i, hi, haS, fun w hw => ?_⟩
    rcases List.mem_map.mp hw with ⟨m, hmval, rfl⟩
    rcases List.mem_iff_get.mp hmval with ⟨t, ht⟩
    obtain ⟨b, hb, hbR⟩ := hcov t.1 t.isLt
    have hmt : (ms.getD t.1 default).Recency = m.Recency := by
      rw [List.getD_eq_get _ _ t.isLt, ht]
    rw [hvR i hi, ← haR]
    have : m.Recency ≤ a.Recency := by
      have := hmax b hb
      rw [hbR, hmt] at this
      exact this
    exact_mod_cast this
  obtain ⟨hRmono, hRmin, hRmax⟩ := inv_qcut_facts hR
  obtain ⟨hFmono, hFmin, hFmax⟩ := direct_qcut_facts hF
  obtain ⟨hMmono, hMmin, hMmax⟩ := direct_qcut_facts hM
  refine ⟨⟨?_, ?_, ?_⟩, ⟨?_, ?_, ?_⟩, ⟨?_, ?_, ?_⟩⟩
  · intro a ha b hb hab
    obtain ⟨i, hi, haR, haS⟩ := hmem a ha
    obtain ⟨j, hj, hbR, hbS⟩ := hmem b hb
    rw [haS, hbS]
    refine hRmono i j (by rw [hvRlen]; exact hi) (by rw [hvRlen]; exact hj) ?_
    rw [hvR i hi, hvR j hj]
    have : a.Recency ≤ b.Recency := hab
    rw [haR, hbR] at this
    exact_mod_cast this
  · intro a ha hmin
    obtain ⟨i, hi, haS, hlb⟩ := hminR a ha hmin
    rw [haS]
    exact hRmin i (by rw [hvRlen]; exact hi) hlb
  · intro a ha hmax
    obtain ⟨i, hi, haS, hub⟩ := hmaxR a ha hmax
    rw [haS]
    exact hRmax i (by rw [hvRlen]; exact hi) hub
  · intro i j hi hj hij
    rw [(houtD i hi).1, (houtD j hj).1]
    exact hFmono i j (by rw [hfrlen]; exact hi) (by rw [hfrlen]; exact hj) hij
  · intro i hi hlb
    rw [(houtD i hi).1]
    refine hFmin i (by rw [hfrlen]; exact hi) fun w hw => ?_
    rcases List.mem_iff_get.mp hw with ⟨t, ht⟩
    have hwt : (rankFirst (ms.map fun m => (m.Frequency : ℚ))).getD t.1 0 = w := by
      rw [List.getD_eq_get _ _ t.isLt, ht]
    rw [← hwt]
    exact hlb t.1 (by rw [← hfrlen]; exact t.isLt)
  · intro i hi hub
    rw [(houtD i hi).1]
    refine hFmax i (by rw [hfrlen]; exact hi) fun w hw => ?_
    rcases List.mem_iff_get.mp hw with ⟨t, ht⟩
    have hwt : (rankFirst (ms.map fun m => (m.Frequency : ℚ))).getD t.1 0 = w := by
      rw [List.getD_eq_get _ _ t.isLt, ht]
    rw [← hwt]
    exact hub t.1 (by rw [← hfrlen]; exact t.isLt)
  · intro i j hi hj hij
    rw [(houtD i hi).2, (houtD j hj).2]
    exact hMmono i j (by rw [hmrlen]; exact hi) (by rw [hmrlen]; exact hj) hij
  · intro i hi hlb
    rw [(houtD i hi).2]
    refine hMmin i (by rw [hmrlen]; exact hi) fun w hw => ?_
    rcases List.mem_iff_get.mp hw with ⟨t, ht⟩
    have hwt : (rankFirst (ms.map fun m => m.Monetary)).getD t.1 0 = w := by
      rw [List.getD_eq_get _ _ t.isLt, ht]
    rw [← hwt]
    exact hlb t.1 (by rw [← hmrlen]; exact t.isLt)
  · intro i hi hub
    rw [(houtD i hi).2]
    refine hMmax i (by rw [hmrlen]; exact hi) fun w hw => ?_
    rcases List.mem_iff_get.mp hw with ⟨t, ht⟩
    have hwt : (rankFirst (ms.map fun m => m.Monetary)).getD t.1 0 = w := by
      rw [List.getD_eq_get _ _ t.isLt, ht]
    rw [← hwt]
    exact hub t.1 (by rw [← hmrlen]; exact t.isLt)

/-! ## Counting lemmas -/

/-- Counting over a list is counting over its index range. -/
theorem countP_eq_countP_range (l : List ℚ) (p : ℚ → Bool) :
    l.countP p = (List.range l.length).countP fun t => p (l.getD t 0) := by
  induction l with
  | nil => rfl
  | cons a l ih =>
    rw [List.length_cons, List.range_succ_eq_map, List.countP_cons,
      List.countP_cons, List.countP_map]
    have hcomp : ((fun t => p ((a :: l).getD t 0)) ∘ Nat.succ) =
        fun t => p (l.getD t 0) := by
      funext t
      simp
    rw [hcomp, ← ih]
    simp

theorem countP_range_le (n b : Nat) :
    (List.range n).countP (fun t => decide (t ≤ b)) = min n (b + 1) := by
  induction n with
  | zero => rfl
  | succ n ih =>
    rw [List.range_succ, List.countP_append, ih]
    simp only [List.countP_cons, List.countP_nil, decide_eq_true_eq]
    split_ifs <;> omega

theorem countP_range_ioc (n a b : Nat) :
    (List.range n).countP (fun t => decide (a < t ∧ t ≤ b)) =
      min n (b + 1) - min n (a + 1) := by
  induction n with
  | zero => rfl
  | succ n ih =>
    rw [List.range_succ, List.countP_append, ih]
    simp only [List.countP_cons, List.countP_nil, decide_eq_true_eq]
    split_ifs <;> omega

theorem countP_or_disjoint {α : Type} (l : List α) (p q : α → Prop)
    [DecidablePred p] [DecidablePred q] (h : ∀ x ∈ l, ¬(p x ∧ q x)) :
    l.countP (fun x => decide (p x ∨ q x)) =
      l.countP (fun x => decide (p x)) + l.countP (fun x => decide (q x)) := by
  induction l with
  | nil => rfl
  | cons a l ih =>
    have hha := h a (List.mem_cons_self a l)
    have hrest : ∀ x ∈ l, ¬(p x ∧ q x) := fun x hx => h x (List.mem_cons_of_mem a hx)
    simp only [List.countP_cons, decide_eq_true_eq, ih hrest]
    by_cases hp : p a
    · have hq : ¬ q a := fun hq => hha ⟨hp, hq⟩
      simp [hp, hq]
      omega
    · by_cases hq : q a <;> simp [hp, hq] <;> omega

theorem countP_range_and_lt (n i : Nat) (hi : i ≤ n) (Q : Nat → Prop)
    [DecidablePred Q] :
    (List.range n).countP (fun j => decide (Q j ∧ j < i)) =
      (List.range i).countP (fun j => decide (Q j)) := by
  induction n with
  | zero =>
    have : i = 0 := Nat.le_zero.mp hi
    rw [this]
    rfl
  | succ n ih =>
    rcases Nat.lt_or_ge i (n + 1) with hlt | hge
    · have hin : i ≤ n := Nat.lt_succ_iff.mp hlt
      rw [List.range_succ, List.countP_append, ih hin]
      simp only [List.countP_cons, List.countP_nil, decide_eq_true_eq]
      have : ¬(Q n ∧ n < i) := fun hc => absurd hc.2 (Nat.not_lt.mpr hin)
      rw [if_neg this]
      omega
    · have hieq : i = n + 1 := le_antisymm hi hge
      subst hieq
      refine List.countP_congr fun j hj => ?_
      have hjn : j < n + 1 := List.mem_range.mp hj
      simp [hjn]

/-- The maximum of a nonempty list over a linear order is attained and
dominates every member. -/
theorem max?_spec {K : Type} [LinearOrder K] {l : List K} (h : l ≠ []) :
    ∃ d, l.max? = some d ∧ d ∈ l ∧ ∀ x ∈ l, x ≤ d := by
  rcases hd : l.max? with _ | d
  · exact absurd (List.max?_eq_none_iff.mp hd) h
  · refine ⟨d, rfl, List.max?_mem (fun a b => max_choice a b) hd, ?_⟩
    exact fun x hx =>
      (List.max?_le_iff (fun a b c => max_le_iff) hd).mp le_rfl x hx

/-- On a list of pairwise distinct keys, mapping each key to the number of
strictly smaller keys enumerates `0, ..., n-1` (in some order).  This is the
heart of the `rank(method = first)` tie-break: it turns any key list into a
permutation of the index range. -/
theorem count_lt_perm {K : Type} [LinearOrder K] :
    ∀ (n : Nat) (l : List K), l.length = n → l.Nodup →
      (l.map fun x => l.countP fun y => decide (y < x)).Perm
        (List.range l.length) := by
  intro n
  induction n using Nat.strong_induction_on with
  | _ n ih =>
    intro l hl hnd
    cases n with
    | zero =>
      rw [List.length_eq_zero.mp hl]
      exact List.Perm.refl _
    | succ m => ?_
    have hne : l ≠ [] := by
      intro hc
      rw [hc] at hl
      exact absurd hl.symm (Nat.succ_ne_zero m)
    obtain ⟨M, hMq, hMmem, hMub⟩ := max?_spec hne
    have hperm : l.Perm (M :: l.erase M) := List.perm_cons_erase hMmem
    have hnd' : (l.erase M).Nodup := hnd.erase M
    have hlen' : (l.erase M).length = m := by
      rw [List.length_erase_of_mem hMmem, hl]
      omega
    have hlt : ∀ x ∈ l.erase M, x < M := by
      intro x hx
      obtain ⟨hne', hxl⟩ := hnd.mem_erase_iff.mp hx
      exact lt_of_le_of_ne (hMub x hxl) hne'
    have hcc : ∀ x : K, l.countP (fun y => decide (y < x)) =
        (M :: l.erase M).countP (fun y => decide (y < x)) :=
      fun x => hperm.countP_eq _
    have hfM : l.countP (fun y => decide (y < M)) = m := by
      rw [hcc M, List.countP_cons]
      have hnotMM : ¬ M < M := lt_irrefl M
      rw [if_neg (by simpa using hnotMM)]
      rw [List.countP_eq_length.mpr fun x hx => decide_eq_true (hlt x hx)]
      rw [hlen']
      omega
    have hfx : ∀ x ∈ l.erase M, l.countP (fun y => decide (y < x)) =
        (l.erase M).countP (fun y => decide (y < x)) := by
      intro x hx
      rw [hcc x, List.countP_cons]
      have : ¬ M < x := not_lt.mpr (hlt x hx).le
      rw [if_neg (by simpa using this)]
      omega
    have hstep1 : (l.map fun x => l.countP fun y => decide (y < x)).Perm
        ((M :: l.erase M).map fun x => l.countP fun y => decide (y < x)) :=
      hperm.map _
    have hstep2 : ((M :: l.erase M).map fun x => l.countP fun y => decide (y < x)) =
        m :: ((l.erase M).map fun x => (l.erase M).countP fun y => decide (y < x)) := by
      rw [List.map_cons, hfM, List.map_congr_left hfx]
    have hIH : ((l.erase M).map fun x => (l.erase M).countP fun y => decide (y < x)).Perm
        (List.range (l.erase M).length) :=
      ih m (by omega) (l.erase M) hlen' hnd'
    rw [hlen'] at hIH
    have hstep3 : (m :: ((l.erase M).map fun x =>
        (l.erase M).countP fun y => decide (y < x))).Perm (List.range (m + 1)) := by
      rw [List.range_succ]
      exact ((hIH.cons m).trans (List.perm_append_singleton m _).symm)
    rw [hl]
    exact (hstep1.trans (hstep2 ▸ hstep3))

/-- `rank(method = first)` produces exactly the ranks `1, ..., n`, in some
order: ties are broken by position, so the keys `(value, index)` are pairwise
distinct under the lexicographic order and `count_lt_perm` applies. -/
theorem rankFirst_perm (vals : List ℚ) :
    (rankFirst vals).Perm
      ((List.range vals.length).map fun i => ((i + 1 : Nat) : ℚ)) := by
  have hg : Function.Injective
      (fun i : Nat => (toLex (vals.getD i 0, i) : Lex (ℚ × Nat))) := by
    intro i j hij
    have h2 := congrArg (fun k : Lex (ℚ × Nat) => (ofLex k).2) hij
    simpa using h2
  have hkeys_nodup : ((List.range vals.length).map fun i =>
      (toLex (vals.getD i 0, i) : Lex (ℚ × Nat))).Nodup :=
    (List.nodup_range vals.length).map hg
  have hlenkeys : ((List.range vals.length).map fun i =>
      (toLex (vals.getD i 0, i) : Lex (ℚ × Nat))).length = vals.length := by
    simp
  have hperm := count_lt_perm _ _ hlenkeys hkeys_nodup
  rw [hlenkeys, List.map_map] at hperm
  have hpoint : ∀ i ∈ List.range vals.length,
      (((fun x => ((List.range vals.length).map fun j =>
            (toLex (vals.getD j 0, j) : Lex (ℚ × Nat))).countP
          fun y => decide (y < x)) ∘ fun j =>
            (toLex (vals.getD j 0, j) : Lex (ℚ × Nat))) i) =
        (vals.countP fun y => decide (y < vals.getD i 0)) +
          ((vals.take i).countP fun y => decide (y = vals.getD i 0)) := by
    intro i hi
    have hiN : i < vals.length := List.mem_range.mp hi
    simp only [Function.comp_apply]
    rw [List.countP_map]
    have hcongr : ∀ j ∈ List.range vals.length,
        (((fun y => decide (y < toLex (vals.getD i 0, i))) ∘ fun j =>
          (toLex (vals.getD j 0, j) : Lex (ℚ × Nat))) j = true) ↔
        ((fun j => decide ((vals.getD j 0 < vals.getD i 0) ∨
          (vals.getD j 0 = vals.getD i 0 ∧ j < i))) j = true) := by
      intro j _
      simp only [Function.comp_apply, decide_eq_true_eq]
      exact Prod.Lex.lt_iff _ _
    rw [List.countP_congr hcongr,
      countP_or_disjoint _ _ _ (fun j _ hc => (ne_of_lt hc.1) hc.2.1)]
    congr 1
    · exact (countP_eq_countP_range vals
        (fun y => decide (y < vals.getD i 0))).symm
    · rw [countP_range_and_lt _ i hiN.le,
        countP_eq_countP_range (vals.take i)
          (fun y => decide (y = vals.getD i 0))]
      have hlt : (vals.take i).length = i := by
        rw [List.length_take]
        omega
      rw [hlt]
      refine List.countP_congr fun j hj => ?_
      have hji : j < i := List.mem_range.mp hj
      have hgetD : (vals.take i).getD j 0 = vals.getD j 0 := by
        rw [List.getD_eq_getElem _ _ (by omega : j < (vals.take i).length),
          List.getD_eq_getElem _ _ (by omega : j < vals.length),
          List.getElem_take]
      simp only [decide_eq_true_eq]
      rw [hgetD]
  rw [List.map_congr_left hpoint] at hperm
  have h2 := hperm.map (fun c => ((1 + c : Nat) : ℚ))
  rw [List.map_map] at h2
  have hL : (List.range vals.length).map ((fun c => ((1 + c : Nat) : ℚ)) ∘
      fun i => (vals.countP fun y => decide (y < vals.getD i 0)) +
        ((vals.take i).countP fun y => decide (y = vals.getD i 0))) =
      rankFirst vals := by
    unfold rankFirst
    refine List.map_congr_left fun i _ => ?_
    simp only [Function.comp_apply]
    exact congrArg (fun k : Nat => (k : ℚ)) (by omega)
  rw [hL] at h2
  have hRmap : (List.range vals.length).map (fun c => ((1 + c : Nat) : ℚ)) =
      (List.range vals.length).map fun i => ((i + 1 : Nat) : ℚ) :=
    List.map_congr_left fun i _ =>
      congrArg (fun k : Nat => (k : ℚ)) (Nat.add_comm 1 i)
  rw [hRmap] at h2
  exact h2

/-! ## Bin placement on strictly sorted populations

When the values are pairwise distinct, the value at sorted position `t`
falls in the bin determined by the integer thresholds `k * (n-1) / 5`; all
bucket sizes then reduce to natural-number division arithmetic. -/

theorem cast_pred {n : Nat} (hp : 0 < n) : ((n - 1 : Nat) : ℚ) = (n : ℚ) - 1 := by
  rw [Nat.cast_sub hp, Nat.cast_one]

theorem floor_hk {n : Nat} (hp : 0 < n) {k : Nat} :
    ⌊(k : ℚ) / 5 * ((n : ℚ) - 1)⌋₊ = k * (n - 1) / 5 := by
  rw [← cast_pred hp]
  have he : (k : ℚ) / 5 * ((n - 1 : Nat) : ℚ) =
      ((k * (n - 1) : Nat) : ℚ) / ((5 : Nat) : ℚ) := by
    push_cast
    ring
  rw [he, Nat.floor_div_nat, Nat.floor_natCast]

theorem edge_lt_iff {vals : List ℚ}
    (hst : List.Sorted (· < ·) (sortedVals vals)) (hp : 0 < vals.length)
    {k t : Nat} (hk : k ≤ 5) (ht : t < vals.length) :
    (quantileAt vals ((k : ℚ) / 5) < (sortedVals vals).getD t 0) ↔
      (k * (vals.length - 1) / 5 < t) := by
  have hslen : (sortedVals vals).length = vals.length := sortedVals_length vals
  have hp' : 0 < (sortedVals vals).length := by rw [hslen]; exact hp
  obtain ⟨h0, h1⟩ := hk_bounds hp' hk
  have hfl : ⌊(k : ℚ) / 5 * (((sortedVals vals).length : ℚ) - 1)⌋₊ =
      k * (vals.length - 1) / 5 := by
    rw [floor_hk hp', hslen]
  unfold quantileAt
  constructor
  · intro hlt
    by_contra hc
    push_neg at hc
    have htf : t ≤ ⌊(k : ℚ) / 5 * (((sortedVals vals).length : ℚ) - 1)⌋₊ := by
      rw [hfl]
      exact hc
    have hcast : (t : ℚ) ≤ (k : ℚ) / 5 * (((sortedVals vals).length : ℚ) - 1) :=
      le_trans (by exact_mod_cast htf) (Nat.floor_le h0)
    exact absurd hlt
      (not_lt.mpr (getD_le_interp (sortedVals_sorted vals) h0 h1 hcast))
  · intro hct
    have htf : ⌊(k : ℚ) / 5 * (((sortedVals vals).length : ℚ) - 1)⌋₊ < t := by
      rw [hfl]
      exact hct
    have hcast : (k : ℚ) / 5 * (((sortedVals vals).length : ℚ) - 1) < (t : ℚ) := by
      calc (k : ℚ) / 5 * (((sortedVals vals).length : ℚ) - 1)
          < (⌊(k : ℚ) / 5 * (((sortedVals vals).length : ℚ) - 1)⌋₊ : ℚ) + 1 :=
            Nat.lt_floor_add_one _
        _ ≤ (t : ℚ) := by exact_mod_cast htf
    exact interp_lt_getD hst h0 h1 (by rw [hslen]; exact ht) hcast

theorem cutBin_strict_eq {vals : List ℚ}
    (hst : List.Sorted (· < ·) (sortedVals vals)) (hp : 0 < vals.length)
    {t : Nat} (ht : t < vals.length) :
    cutBin (qcutEdges vals) ((sortedVals vals).getD t 0) =
      max 1 ((List.range 6).countP fun k =>
        decide (k * (vals.length - 1) / 5 < t)) := by
  unfold cutBin qcutEdges
  congr 1
  rw [List.countP_map]
  refine List.countP_congr fun k hk => ?_
  have hk5 : k ≤ 5 := Nat.lt_succ_iff.mp (List.mem_range.mp hk)
  simp only [Function.comp_apply, decide_eq_true_eq]
  exact edge_lt_iff hst hp hk5 ht

/-- Which bin the sorted position `t` lands in, as interval arithmetic on the
division thresholds. -/
theorem bin_char (m t j : Nat) (ht : t ≤ m) (hj1 : 1 ≤ j) (hj5 : j ≤ 5) :
    (max 1 ((List.range 6).countP fun k => decide (k * m / 5 < t)) = j) ↔
      ((j = 1 ∧ t ≤ m / 5) ∨
        (2 ≤ j ∧ (j - 1) * m / 5 < t ∧ t ≤ j * m / 5)) := by
  have hr6 : List.range 6 = [0, 1, 2, 3, 4, 5] := rfl
  rw [hr6]
  simp only [List.countP_cons, List.countP_nil, decide_eq_true_eq]
  interval_cases j <;> split_ifs <;> omega

/-- On a population of pairwise distinct values (with at least two of them),
the six quantile edges are pairwise distinct, so `pd.qcut` succeeds. -/
theorem qcutEdges_nodup_strict {vals : List ℚ}
    (hst : List.Sorted (· < ·) (sortedVals vals)) (h2 : 2 ≤ vals.length) :
    (qcutEdges vals).Nodup := by
  have hslen := sortedVals_length vals
  have hp' : 0 < (sortedVals vals).length := by omega
  have hmono : ∀ k k' : Nat, k < k' → k' ≤ 5 →
      quantileAt vals ((k : ℚ) / 5) < quantileAt vals ((k' : ℚ) / 5) := by
    intro k k' hkk hk5
    unfold quantileAt
    refine interp_lt_interp hst
      (hk_bounds hp' (le_of_lt (lt_of_lt_of_le hkk hk5))).1 ?_
      (hk_bounds hp' hk5).2
    refine mul_lt_mul_of_pos_right ?_ ?_
    · have hklt : (k : ℚ) < (k' : ℚ) := by exact_mod_cast hkk
      linarith
    · have h2' : (2 : ℚ) ≤ ((sortedVals vals).length : ℚ) := by
        exact_mod_cast (by omega : 2 ≤ (sortedVals vals).length)
      linarith
  unfold qcutEdges
  have hpair : List.Pairwise (· < ·)
      ((List.range 6).map fun k : Nat => quantileAt vals ((k : ℚ) / 5)) := by
    rw [List.pairwise_map]
    refine (List.pairwise_lt_range 6).imp_of_mem ?_
    intro a b ha hb hab
    exact hmono a b hab (Nat.lt_succ_iff.mp (List.mem_range.mp hb))
  exact hpair.imp ne_of_lt

/-- The tie-broken ranks are pairwise distinct. -/
theorem rankFirst_nodup (vals : List ℚ) : (rankFirst vals).Nodup := by
  refine ((rankFirst_perm vals).nodup_iff).mpr ?_
  refine List.Nodup.map ?_ (List.nodup_range _)
  intro a b hab
  have : (a : ℚ) + 1 = (b : ℚ) + 1 := by push_cast at hab; exact_mod_cast hab
  exact_mod_cast (by linarith : (a : ℚ) = (b : ℚ))

set_option maxHeartbeats 1600000 in
/-- On a population of at least 5 pairwise distinct values, every one of the
five bins is hit, and any two bucket sizes differ by at most one. -/
theorem bucket_counts {vals : List ℚ} (hnd : vals.Nodup)
    (h5 : 5 ≤ vals.length) :
    (∀ j, 1 ≤ j → j ≤ 5 →
      0 < vals.countP fun v => decide (cutBin (qcutEdges vals) v = j)) ∧
    (∀ j j', 1 ≤ j → j ≤ 5 → 1 ≤ j' → j' ≤ 5 →
      (vals.countP fun v => decide (cutBin (qcutEdges vals) v = j)) ≤
        (vals.countP fun v => decide (cutBin (qcutEdges vals) v = j')) + 1) := by
  have hst := sortedVals_strict vals hnd
  have hp : 0 < vals.length := by omega
  have hslen := sortedVals_length vals
  have hcount : ∀ j, 1 ≤ j → j ≤ 5 →
      (vals.countP fun v => decide (cutBin (qcutEdges vals) v = j)) =
        (if j = 1 then min vals.length ((vals.length - 1) / 5 + 1)
         else min vals.length (j * (vals.length - 1) / 5 + 1) -
           min vals.length ((j - 1) * (vals.length - 1) / 5 + 1)) := by
    intro j hj1 hj5
    have h1 : vals.countP (fun v => decide (cutBin (qcutEdges vals) v = j)) =
        (sortedVals vals).countP
          (fun v => decide (cutBin (qcutEdges vals) v = j)) :=
      ((sortedVals_perm vals).countP_eq _).symm
    rw [h1, countP_eq_countP_range (sortedVals vals), hslen]
    have h2 : ∀ t ∈ List.range vals.length,
        ((fun t => decide (cutBin (qcutEdges vals)
          ((sortedVals vals).getD t 0) = j)) t = true) ↔
        ((fun t => decide ((j = 1 ∧ t ≤ (vals.length - 1) / 5) ∨
          (2 ≤ j ∧ (j - 1) * (vals.length - 1) / 5 < t ∧
            t ≤ j * (vals.length - 1) / 5))) t = true) := by
      intro t htmem
      have htn : t < vals.length := List.mem_range.mp htmem
      simp only [decide_eq_true_eq]
      rw [cutBin_strict_eq hst hp htn]
      exact bin_char (vals.length - 1) t j (by omega) hj1 hj5
    rw [List.countP_congr h2]
    by_cases hj : j = 1
    · subst hj
      rw [if_pos rfl]
      have h3 : ∀ t ∈ List.range vals.length,
          ((fun t => decide ((1 = 1 ∧ t ≤ (vals.length - 1) / 5) ∨
            (2 ≤ 1 ∧ (1 - 1) * (vals.length - 1) / 5 < t ∧
              t ≤ 1 * (vals.length - 1) / 5))) t = true) ↔
          ((fun t => decide (t ≤ (vals.length - 1) / 5)) t = true) := by
        intro t _
        simp only [decide_eq_true_eq]
        norm_num
      rw [List.countP_congr h3, countP_range_le]
    · rw [if_neg hj]
      have h3 : ∀ t ∈ List.range vals.length,
          ((fun t => decide ((j = 1 ∧ t ≤ (vals.length - 1) / 5) ∨
            (2 ≤ j ∧ (j - 1) * (vals.length - 1) / 5 < t ∧
              t ≤ j * (vals.length - 1) / 5))) t = true) ↔
          ((fun t => decide ((j - 1) * (vals.length - 1) / 5 < t ∧
            t ≤ j * (vals.length - 1) / 5)) t = true) := by
        intro t _
        simp only [decide_eq_true_eq]
        constructor
        · rintro (⟨hj', _⟩ | ⟨_, hB⟩)
          · exact absurd hj' hj
          · exact hB
        · intro hB
          exact Or.inr ⟨by omega, hB⟩
      rw [List.countP_congr h3, countP_range_ioc]
  obtain ⟨q, r, hm5, hr5⟩ : ∃ q r, vals.length - 1 = 5 * q + r ∧ r < 5 :=
    ⟨(vals.length - 1) / 5, (vals.length - 1) % 5, by omega, by omega⟩
  have hn5 : vals.length = 5 * q + r + 1 := by omega
  refine ⟨fun j hj1 hj5 => ?_, fun j j' hj1 hj5 hj1' hj5' => ?_⟩
  · rw [hcount j hj1 hj5, hm5, hn5]
    interval_cases j <;> split_ifs <;> interval_cases r <;> omega
  · rw [hcount j hj1 hj5, hcount j' hj1' hj5', hm5, hn5]
    interval_cases j <;> interval_cases j' <;> split_ifs <;>
      interval_cases r <;> omega

/-! ## Transfer of bucket counts to scored rows -/

theorem countP_scores {vals : List ℚ} {qs : List Nat} {labels : List Nat}
    (hqs : qs = vals.map fun v => labels.getD (cutBin (qcutEdges vals) v - 1) 0)
    (j : Nat) :
    (List.range vals.length).countP (fun i => decide (qs.getD i 0 = j)) =
      vals.countP fun v =>
        decide (labels.getD (cutBin (qcutEdges vals) v - 1) 0 = j) := by
  rw [countP_eq_countP_range vals]
  refine List.countP_congr fun i hi => ?_
  have hiN : i < vals.length := List.mem_range.mp hi
  rw [hqs]
  simp only [decide_eq_true_eq]
  rw [getD_map_of_lt _ _ hiN _ 0]

theorem countP_labelInv {vals : List ℚ} (j : Nat) (hj1 : 1 ≤ j) (hj5 : j ≤ 5) :
    (vals.countP fun v =>
      decide ([5, 4, 3, 2, 1].getD (cutBin (qcutEdges vals) v - 1) 0 = j)) =
      vals.countP fun v => decide (cutBin (qcutEdges vals) v = 6 - j) := by
  refine List.countP_congr fun v hv => ?_
  have h1 := cutBin_pos (qcutEdges vals) v
  have h2 := cutBin_le_five hv
  simp only [decide_eq_true_eq]
  rw [labelInv_getD h1 h2]
  omega

theorem countP_labelDirect {vals : List ℚ} (j : Nat) :
    (vals.countP fun v =>
      decide ([1, 2, 3, 4, 5].getD (cutBin (qcutEdges vals) v - 1) 0 = j)) =
      vals.countP fun v => decide (cutBin (qcutEdges vals) v = j) := by
  refine List.countP_congr fun v hv => ?_
  have h1 := cutBin_pos (qcutEdges vals) v
  have h2 := cutBin_le_five hv
  simp only [decide_eq_true_eq]
  rw [labelDirect_getD h1 h2]

/-! ## C4: bucket population -/


/-- C4 counterexample: a population of five customers with identical Recency
values, on which the scoring stage raises the duplicate-bin-edges error
instead of assigning scores — refuting the claim that every population of at
least 5 customers gets scores in 1..5 with all five buckets populated. -/
theorem C4_counterexample :
    degMetrics.length = 5 ∧
      scoreStage degMetrics = Except.error "Bin edges must be unique" :=
  ⟨rfl, by with_unfolding_all rfl⟩

set_option maxHeartbeats 800000 in
/-- C4 amended: for populations of at least 5 customers whose Recency values
are pairwise distinct (Frequency and Monetary ties are broken by the
first-occurrence rank), the scoring stage succeeds, every customer receives
R/F/M scores in `{1, ..., 5}`, all five buckets per metric are non-empty, and
any two bucket sizes per metric differ by at most 1. -/
theorem C4_five_buckets (ms : List CustomerMetrics) (h5 : 5 ≤ ms.length)
    (hnd : (ms.map fun m => (m.Recency : ℚ)).Nodup) :
    ∃ out, scoreStage ms = .ok out ∧ out.length = ms.length ∧
      (∀ row ∈ out, (1 ≤ row.R_Score ∧ row.R_Score ≤ 5) ∧
        (1 ≤ row.F_Score ∧ row.F_Score ≤ 5) ∧
        (1 ≤ row.M_Score ∧ row.M_Score ≤ 5)) ∧
      (∀ j, 1 ≤ j → j ≤ 5 →
        (∃ a ∈ out, a.R_Score = j) ∧ (∃ a ∈ out, a.F_Score = j) ∧
          (∃ a ∈ out, a.M_Score = j)) ∧
      (∀ j j', 1 ≤ j → j ≤ 5 → 1 ≤ j' → j' ≤ 5 →
        (out.countP fun a => decide (a.R_Score = j)) ≤
          (out.countP fun a => decide (a.R_Score = j')) + 1 ∧
        (out.countP fun a => decide (a.F_Score = j)) ≤
          (out.countP fun a => decide (a.F_Score = j')) + 1 ∧
        (out.countP fun a => decide (a.M_Score = j)) ≤
          (out.countP fun a => decide (a.M_Score = j')) + 1) := by
  have hlenR : (ms.map fun m => (m.Recency : ℚ)).length = ms.length := by simp
  have hlenF : (rankFirst (ms.map fun m => (m.Frequency : ℚ))).length =
      ms.length := by
    rw [rankFirst_length]
    simp
  have hlenM : (rankFirst (ms.map fun m => m.Monetary)).length = ms.length := by
    rw [rankFirst_length]
    simp
  have hndF := rankFirst_nodup (ms.map fun m => (m.Frequency : ℚ))
  have hndM := rankFirst_nodup (ms.map fun m => m.Monetary)
  have hRok := qcutEdges_nodup_strict (sortedVals_strict _ hnd) (by omega)
  have hFok := qcutEdges_nodup_strict (sortedVals_strict _ hndF) (by omega)
  have hMok := qcutEdges_nodup_strict (sortedVals_strict _ hndM) (by omega)
  obtain ⟨out, hout⟩ := scoreStage_eq_ok hRok hFok hMok
  obtain ⟨rs, fs, mos, hR, hF, hM, houtEq⟩ := scoreStage_inv hout
  obtain ⟨-, hrs⟩ := qcut_inv hR
  obtain ⟨-, hfs⟩ := qcut_inv hF
  obtain ⟨-, hmos⟩ := qcut_inv hM
  have hcR : ∀ j, (out.countP fun a => decide (a.R_Score = j)) =
      (ms.map fun m => (m.Recency : ℚ)).countP fun v =>
        decide ([5, 4, 3, 2, 1].getD
          (cutBin (qcutEdges (ms.map fun m => (m.Recency : ℚ))) v - 1) 0 = j) := by
    intro j
    rw [houtEq, List.countP_map]
    have hstep : ((List.range ms.length).countP fun i =>
        decide (rs.getD i 0 = j)) =
        (List.range (ms.map fun m => (m.Recency : ℚ)).length).countP fun i =>
          decide (rs.getD i 0 = j) := by
      rw [hlenR]
    exact (List.countP_congr fun i _ => Iff.rfl).trans
      (hstep.trans (countP_scores hrs j))
  have hcF : ∀ j, (out.countP fun a => decide (a.F_Score = j)) =
      (rankFirst (ms.map fun m => (m.Frequency : ℚ))).countP fun v =>
        decide ([1, 2, 3, 4, 5].getD
          (cutBin (qcutEdges (rankFirst (ms.map fun m => (m.Frequency : ℚ))))
            v - 1) 0 = j) := by
    intro j
    rw [houtEq, List.countP_map]
    have hstep : ((List.range ms.length).countP fun i =>
        decide (fs.getD i 0 = j)) =
        (List.range (rankFirst (ms.map fun m =>
          (m.Frequency : ℚ))).length).countP fun i =>
          decide (fs.getD i 0 = j) := by
      rw [hlenF]
    exact (List.countP_congr fun i _ => Iff.rfl).trans
      (hstep.trans (countP_scores hfs j))
  have hcM : ∀ j, (out.countP fun a => decide (a.M_Score = j)) =
      (rankFirst (ms.map fun m => m.Monetary)).countP fun v =>
        decide ([1, 2, 3, 4, 5].getD
          (cutBin (qcutEdges (rankFirst (ms.map fun m => m.Monetary)))
            v - 1) 0 = j) := by
    intro j
    rw [houtEq, List.countP_map]
    have hstep : ((List.range ms.length).countP fun i =>
        decide (mos.getD i 0 = j)) =
        (List.range (rankFirst (ms.map fun m =>
          m.Monetary)).length).countP fun i =>
          decide (mos.getD i 0 = j) := by
      rw [hlenM]
    exact (List.countP_congr fun i _ => Iff.rfl).trans
      (hstep.trans (countP_scores hmos j))
  obtain ⟨hposR, hsizeR⟩ := bucket_counts hnd (by omega)
  obtain ⟨hposF, hsizeF⟩ := bucket_counts hndF (by omega)
  obtain ⟨hposM, hsizeM⟩ := bucket_counts hndM (by omega)
  refine ⟨out, hout, ?_, ?_, ?_, ?_⟩
  · rw [houtEq]
    simp
  · intro row hrow
    rw [houtEq] at hrow
    rcases List.mem_map.mp hrow with ⟨i, hi, hb⟩
    have hiN : i < ms.length := List.mem_range.mp hi
    have hrsv : rs.getD i 0 = [5, 4, 3, 2, 1].getD
        (cutBin (qcutEdges (ms.map fun m => (m.Recency : ℚ)))
          ((ms.map fun m => (m.Recency : ℚ)).getD i 0) - 1) 0 := by
      rw [hrs]
      exact getD_map_of_lt _ _ (by omega) _ 0
    have hfsv : fs.getD i 0 = [1, 2, 3, 4, 5].getD
        (cutBin (qcutEdges (rankFirst (ms.map fun m => (m.Frequency : ℚ))))
          ((rankFirst (ms.map fun m => (m.Frequency : ℚ))).getD i 0) - 1) 0 := by
      rw [hfs]
      exact getD_map_of_lt _ _ (by omega) _ 0
    have hmosv : mos.getD i 0 = [1, 2, 3, 4, 5].getD
        (cutBin (qcutEdges (rankFirst (ms.map fun m => m.Monetary)))
          ((rankFirst (ms.map fun m => m.Monetary)).getD i 0) - 1) 0 := by
      rw [hmos]
      exact getD_map_of_lt _ _ (by omega) _ 0
    have hbinR1 := cutBin_pos (qcutEdges (ms.map fun m => (m.Recency : ℚ)))
      ((ms.map fun m => (m.Recency : ℚ)).getD i 0)
    have hbinR2 := cutBin_le_five
      (show ((ms.map fun m => (m.Recency : ℚ)).getD i 0) ∈
          (ms.map fun m => (m.Recency : ℚ)) from getD_mem_of_lt (by omega))
    have hbinF1 := cutBin_pos
      (qcutEdges (rankFirst (ms.map fun m => (m.Frequency : ℚ))))
      ((rankFirst (ms.map fun m => (m.Frequency : ℚ))).getD i 0)
    have hbinF2 := cutBin_le_five
      (show ((rankFirst (ms.map fun m => (m.Frequency : ℚ))).getD i 0) ∈
          rankFirst (ms.map fun m => (m.Frequency : ℚ)) from
        getD_mem_of_lt (by omega))
    have hbinM1 := cutBin_pos
      (qcutEdges (rankFirst (ms.map fun m => m.Monetary)))
      ((rankFirst (ms.map fun m => m.Monetary)).getD i 0)
    have hbinM2 := cutBin_le_five
      (show ((rankFirst (ms.map fun m => m.Monetary)).getD i 0) ∈
          rankFirst (ms.map fun m => m.Monetary) from getD_mem_of_lt (by omega))
    have hRrow : row.R_Score = rs.getD i 0 := by rw [← hb]
    have hFrow : row.F_Score = fs.getD i 0 := by rw [← hb]
    have hMrow : row.M_Score = mos.getD i 0 := by rw [← hb]
    refine ⟨?_, ?_, ?_⟩
    · rw [hRrow, hrsv, labelInv_getD hbinR1 hbinR2]
      omega
    · rw [hFrow, hfsv, labelDirect_getD hbinF1 hbinF2]
      omega
    · rw [hMrow, hmosv, labelDirect_getD hbinM1 hbinM2]
      omega
  · intro j hj1 hj5
    refine ⟨?_, ?_, ?_⟩
    · have hpos := hposR (6 - j) (by omega) (by omega)
      have : 0 < out.countP fun a => decide (a.R_Score = j) := by
        rw [hcR j, countP_labelInv j hj1 hj5]
        exact hpos
      obtain ⟨a, ha, hpa⟩ := List.countP_pos_iff.mp this
      exact ⟨a, ha, of_decide_eq_true hpa⟩
    · have hpos := hposF j hj1 hj5
      have : 0 < out.countP fun a => decide (a.F_Score = j) := by
        rw [hcF j, countP_labelDirect j]
        exact hpos
      obtain ⟨a, ha, hpa⟩ := List.countP_pos_iff.mp this
      exact ⟨a, ha, of_decide_eq_true hpa⟩
    · have hpos := hposM j hj1 hj5
      have : 0 < out.countP fun a => decide (a.M_Score = j) := by
        rw [hcM j, countP_labelDirect j]
        exact hpos
      obtain ⟨a, ha, hpa⟩ := List.countP_pos_iff.mp this
      exact ⟨a, ha, of_decide_eq_true hpa⟩
  · intro j j' hj1 hj5 hj1' hj5'
    refine ⟨?_, ?_, ?_⟩
    · rw [hcR j, hcR j', countP_labelInv j hj1 hj5, countP_labelInv j' hj1' hj5']
      exact hsizeR (6 - j) (6 - j') (by omega) (by omega) (by omega) (by omega)
    · rw [hcF j, hcF j', countP_labelDirect j, countP_labelDirect j']
      exact hsizeF j j' hj1 hj5 hj1' hj5'
    · rw [hcM j, hcM j', countP_labelDirect j, countP_labelDirect j']
      exact hsizeM j j' hj1 hj5 hj1' hj5'


theorem C4_five_buckets_witness :
    ∃ out, scoreStage exMetrics = .ok out ∧ out.length = exMetrics.length ∧
      (∀ row ∈ out, (1 ≤ row.R_Score ∧ row.R_Score ≤ 5) ∧
        (1 ≤ row.F_Score ∧ row.F_Score ≤ 5) ∧
        (1 ≤ row.M_Score ∧ row.M_Score ≤ 5)) ∧
      (∀ j, 1 ≤ j → j ≤ 5 →
        (∃ a ∈ out, a.R_Score = j) ∧ (∃ a ∈ out, a.F_Score = j) ∧
          (∃ a ∈ out, a.M_Score = j)) ∧
      (∀ j j', 1 ≤ j → j ≤ 5 → 1 ≤ j' → j' ≤ 5 →
        (out.countP fun a => decide (a.R_Score = j)) ≤
          (out.countP fun a => decide (a.R_Score = j')) + 1 ∧
        (out.countP fun a => decide (a.F_Score = j)) ≤
          (out.countP fun a => decide (a.F_Score = j')) + 1 ∧
        (out.countP fun a => decide (a.M_Score = j)) ≤
          (out.countP fun a => decide (a.M_Score = j')) + 1) :=
  C4_five_buckets exMetrics (by decide) (by decide)

/-! ## C5: the segments partition the population and its revenue -/

theorem pipeline_inv {orders : List OrderRecord} {snap : Int}
    {out : PipelineOutput} (h : pipeline orders snap = .ok out) :
    ∃ rows, scoreStage (rfm orders snap) = .ok rows ∧
      out = { metrics := rfm orders snap, scored := rows
              kpi := kpiStage rows } := by
  unfold pipeline at h
  rcases hs : scoreStage (rfm orders snap) with e | rows
  · rw [hs, except_bind_error] at h
    exact Except.noConfusion h
  · rw [hs, except_bind_ok] at h
    injection h with h
    exact ⟨rows, rfl, h.symm⟩

theorem map_getD_range {α : Type} (l : List α) (d : α) :
    (List.range l.length).map (fun i => l.getD i d) = l := by
  induction l with
  | nil => rfl
  | cons a l ih =>
    rw [List.length_cons, List.range_succ_eq_map, List.map_cons, List.map_map]
    have hcomp : ((fun i => (a :: l).getD i d) ∘ Nat.succ) =
        fun i => l.getD i d := by
      funext t
      simp
    rw [hcomp, ih]
    simp

theorem segment_cases (r f m : Nat) :
    segment r f m = "Champion" ∨ segment r f m = "Loyal" ∨
    segment r f m = "Fence Sitter" ∨ segment r f m = "At Risk" ∨
    segment r f m = "Churned" := by
  unfold segment
  split_ifs <;> simp

theorem segment_trichotomy (s : String)
    (hs : s = "Champion" ∨ s = "Loyal" ∨ s = "Fence Sitter" ∨
      s = "At Risk" ∨ s = "Churned") :
    ((s == "Champion") = true ∧
      (s == "Loyal" || s == "Fence Sitter") = false ∧
      (s == "At Risk" || s == "Churned") = false) ∨
    ((s == "Champion") = false ∧
      (s == "Loyal" || s == "Fence Sitter") = true ∧
      (s == "At Risk" || s == "Churned") = false) ∨
    ((s == "Champion") = false ∧
      (s == "Loyal" || s == "Fence Sitter") = false ∧
      (s == "At Risk" || s == "Churned") = true) := by
  rcases hs with rfl | rfl | rfl | rfl | rfl <;> decide

/-- Splitting a revenue sum along three mutually exclusive, jointly
exhaustive row predicates. -/
theorem sum_filter_three (l : List ScoredRow) (p q r : ScoredRow → Bool)
    (h : ∀ x ∈ l, (p x = true ∧ q x = false ∧ r x = false) ∨
      (p x = false ∧ q x = true ∧ r x = false) ∨
      (p x = false ∧ q x = false ∧ r x = true)) :
    ((l.filter p).map (·.Monetary)).sum + ((l.filter q).map (·.Monetary)).sum +
      ((l.filter r).map (·.Monetary)).sum = (l.map (·.Monetary)).sum := by
  induction l with
  | nil => simp
  | cons a l ih =>
    have hrest := fun x hx => h x (List.mem_cons_of_mem a hx)
    have hii := ih hrest
    rcases h a (List.mem_cons_self a l) with ⟨h1, h2, h3⟩ | ⟨h1, h2, h3⟩ |
        ⟨h1, h2, h3⟩ <;>
      simp [List.filter_cons, h1, h2, h3] <;> linarith

set_option maxHeartbeats 400000 in
/-- C5: for every successfully classified population, each input customer
appears exactly once in the final segment mapping, and
`champion_revenue + (Loyal and Fence Sitter revenue) + at_risk_revenue`
equals `total_revenue` — the segments partition the population's revenue with
no overlap and no omission. -/
theorem C5_revenue_partition (orders : List OrderRecord) (snap : Int)
    (out : PipelineOutput) (h : pipeline orders snap = .ok out) :
    ((out.scored.map (·.user_id)).Nodup ∧
      (∀ u, u ∈ out.scored.map (·.user_id) ↔ u ∈ orders.map (·.user_id))) ∧
    out.kpi.champion_revenue +
        ((out.scored.filter fun x => x.Segment == "Loyal" ||
          x.Segment == "Fence Sitter").map (·.Monetary)).sum +
        out.kpi.at_risk_revenue = out.kpi.total_revenue := by
  obtain ⟨rows, hs, rfl⟩ := pipeline_inv h
  obtain ⟨rs, fs, mos, hR, hF, hM, hrowsEq⟩ := scoreStage_inv hs
  have hmapuid : rows.map (·.user_id) = (rfm orders snap).map (·.user_id) := by
    rw [hrowsEq, List.map_map]
    have hstep : (List.range (rfm orders snap).length).map
        ((fun x : ScoredRow => x.user_id) ∘ fun i =>
          { user_id := ((rfm orders snap).getD i default).user_id
            Recency := ((rfm orders snap).getD i default).Recency
            Frequency := ((rfm orders snap).getD i default).Frequency
            Monetary := ((rfm orders snap).getD i default).Monetary
            R_Score := rs.getD i 0
            F_Score := fs.getD i 0
            M_Score := mos.getD i 0
            Segment := segment (rs.getD i 0) (fs.getD i 0) (mos.getD i 0) }) =
        (List.range (rfm orders snap).length).map
          ((fun m : CustomerMetrics => m.user_id) ∘ fun i =>
            (rfm orders snap).getD i default) :=
      List.map_congr_left fun i _ => rfl
    rw [hstep, ← List.map_map, map_getD_range]
  have hseg5 : ∀ x ∈ rows, x.Segment = "Champion" ∨ x.Segment = "Loyal" ∨
      x.Segment = "Fence Sitter" ∨ x.Segment = "At Risk" ∨
      x.Segment = "Churned" := by
    intro x hx
    rw [hrowsEq] at hx
    rcases List.mem_map.mp hx with ⟨i, _, hb⟩
    rw [← hb]
    exact segment_cases _ _ _
  refine ⟨⟨?_, ?_⟩, ?_⟩
  · show (rows.map (·.user_id)).Nodup
    rw [hmapuid, rfm_map_user_id]
    exact customersOf_nodup orders
  · intro u
    show u ∈ rows.map (·.user_id) ↔ u ∈ orders.map (·.user_id)
    rw [hmapuid, rfm_map_user_id]
    exact mem_customersOf
  · have htri : ∀ x ∈ rows,
        ((fun x : ScoredRow => x.Segment == "Champion") x = true ∧
          (fun x : ScoredRow => x.Segment == "Loyal" ||
            x.Segment == "Fence Sitter") x = false ∧
          (fun x : ScoredRow => x.Segment == "At Risk" ||
            x.Segment == "Churned") x = false) ∨
        ((fun x : ScoredRow => x.Segment == "Champion") x = false ∧
          (fun x : ScoredRow => x.Segment == "Loyal" ||
            x.Segment == "Fence Sitter") x = true ∧
          (fun x : ScoredRow => x.Segment == "At Risk" ||
            x.Segment == "Churned") x = false) ∨
        ((fun x : ScoredRow => x.Segment == "Champion") x = false ∧
          (fun x : ScoredRow => x.Segment == "Loyal" ||
            x.Segment == "Fence Sitter") x = false ∧
          (fun x : ScoredRow => x.Segment == "At Risk" ||
            x.Segment == "Churned") x = true) :=
      fun x hx => segment_trichotomy x.Segment (hseg5 x hx)
    exact sum_filter_three rows _ _ _ htri


theorem C5_revenue_partition_witness :
    ((exOut5.scored.map (·.user_id)).Nodup ∧
      (∀ u, u ∈ exOut5.scored.map (·.user_id) ↔
        u ∈ exOrders5.map (·.user_id))) ∧
    exOut5.kpi.champion_revenue +
        ((exOut5.scored.filter fun x => x.Segment == "Loyal" ||
          x.Segment == "Fence Sitter").map (·.Monetary)).sum +
        exOut5.kpi.at_risk_revenue = exOut5.kpi.total_revenue :=
  C5_revenue_partition exOrders5 20 exOut5 (by with_unfolding_all rfl)

/-! ## C6: zero total revenue does not raise -/

/-- C6 amended: the dependency ratio is computed with numpy semantics — a
zero total revenue silently produces a non-finite value (`none`), no
exception is raised, and for nonzero total revenue the ratio is exactly
`champion_revenue / total_revenue`. -/
theorem C6_dependency_not_raised (orders : List OrderRecord) (snap : Int)
    (out : PipelineOutput) (h : pipeline orders snap = .ok out) :
    (out.kpi.total_revenue = 0 → out.kpi.revenue_dependency = none) ∧
    (out.kpi.total_revenue ≠ 0 →
      out.kpi.revenue_dependency =
        some (out.kpi.champion_revenue / out.kpi.total_revenue)) := by
  obtain ⟨rows, hs, rfl⟩ := pipeline_inv h
  constructor
  · intro h0
    have h0' : (rows.map (·.Monetary)).sum = 0 := h0
    show npDiv ((rows.filter fun r =>
        r.Segment == "Champion").map (·.Monetary)).sum
      ((rows.map (·.Monetary)).sum) = none
    unfold npDiv
    rw [if_pos h0']
  · intro h0
    have h0' : (rows.map (·.Monetary)).sum ≠ 0 := h0
    show npDiv ((rows.filter fun r =>
        r.Segment == "Champion").map (·.Monetary)).sum
      ((rows.map (·.Monetary)).sum) = some _
    unfold npDiv
    rw [if_neg h0']
    rfl


/-- C6 counterexample: on an all-zero-revenue population the whole run
succeeds (aggregation, scoring and classification included) and the
dependency ratio is silently the non-finite numpy value — no
`DivisionByZeroError` is reported to the caller. -/
theorem C6_counterexample :
    pipeline zeroOrders 20 = Except.ok zeroOut ∧
      zeroOut.kpi.total_revenue = 0 ∧ zeroOut.kpi.revenue_dependency = none :=
  ⟨by with_unfolding_all rfl, rfl, rfl⟩

theorem C6_dependency_not_raised_witness :
    (exOut5.kpi.total_revenue = 0 → exOut5.kpi.revenue_dependency = none) ∧
    (exOut5.kpi.total_revenue ≠ 0 →
      exOut5.kpi.revenue_dependency =
        some (exOut5.kpi.champion_revenue / exOut5.kpi.total_revenue)) :=
  C6_dependency_not_raised exOrders5 20 exOut5 (by with_unfolding_all rfl)

/-! ## C7: a snapshot before the data produces negative Recency silently -/

/-- C7 amended: when the snapshot date precedes one of a customer's order
dates, the metric aggregator does not fail — it produces that customer's row
with a strictly negative Recency. -/
theorem C7_negative_recency_produced (orders : List OrderRecord) (snap : Int)
    (u : Nat) (hmem : ∃ r ∈ orders, r.user_id = u ∧ snap < r.order_date) :
    ∃ row ∈ rfm orders snap, row.user_id = u ∧ row.Recency < 0 := by
  rcases hmem with ⟨r, hr, hru, hdate⟩
  have hu : u ∈ orders.map (·.user_id) := List.mem_map.mpr ⟨r, hr, hru⟩
  have hu' : u ∈ customersOf orders := mem_customersOf.mpr hu
  have hne' : (rowsOf orders u).map (·.order_date) ≠ [] := by
    simpa using rowsOf_ne_nil hu
  obtain ⟨d, hdq, hdmem, hdub⟩ := maxDate_spec hne'
  refine ⟨_, List.mem_map.mpr ⟨u, hu', rfl⟩, rfl, ?_⟩
  show snap - ((rowsOf orders u).map (·.order_date)).max?.getD 0 < 0
  rw [hdq]
  have hrd : r.order_date ≤ d :=
    hdub _ (List.mem_map.mpr ⟨r, mem_rowsOf.mpr ⟨hr, hru⟩, rfl⟩)
  simp only [Option.getD_some]
  omega


/-- C7 counterexample: with the snapshot three days before the only order,
the aggregator silently emits `Recency = -3` instead of failing with
`InvalidSnapshotError`. -/
theorem C7_counterexample :
    rfm negOrders 10 =
      [{ user_id := 7, Recency := -3, Frequency := 1, Monetary := 500 }] := by
  with_unfolding_all rfl

theorem C7_negative_recency_produced_witness :
    ∃ row ∈ rfm negOrders 10, row.user_id = 7 ∧ row.Recency < 0 :=
  C7_negative_recency_produced negOrders 10 7 (by decide)

/-! ## C8: small populations succeed; degenerate Recency fails -/

theorem interp_const {s : List ℚ} {c : ℚ} (hp : 0 < s.length)
    (hc : ∀ i, i < s.length → s.getD i 0 = c) (h : ℚ) : interp s h = c := by
  by_cases hb : ⌊h⌋₊ + 1 < s.length
  · rw [interp_eq hb, hc _ (by omega), hc _ hb]
    ring
  · rw [interp_eq_last hb, hc _ (by omega)]

/-- C8 amended: a population of fewer than 5 customers does not by itself
make the scorer fail (see the four-customer counterexample); what fails is a
degenerate Recency distribution: whenever all customers share one Recency
value, the Recency `qcut` raises the duplicate-bin-edges error. -/
theorem C8_degenerate_recency_fails (ms : List CustomerMetrics) (hne : ms ≠ [])
    (heq : ∀ a ∈ ms, ∀ b ∈ ms, a.Recency = b.Recency) :
    scoreStage ms = Except.error "Bin edges must be unique" := by
  obtain ⟨m0, hm0⟩ := List.exists_mem_of_ne_nil ms hne
  have hvc : ∀ v ∈ ms.map (fun m => (m.Recency : ℚ)), v = ((m0.Recency : ℚ)) := by
    intro v hvv
    rcases List.mem_map.mp hvv with ⟨m, hm, rfl⟩
    exact_mod_cast congrArg (fun z : Int => (z : ℚ)) (heq m hm m0 hm0)
  have hvne : ms.map (fun m => (m.Recency : ℚ)) ≠ [] := by
    simpa using hne
  have hp : 0 < (ms.map fun m => (m.Recency : ℚ)).length :=
    List.length_pos.mpr hvne
  have hsp : 0 < (sortedVals (ms.map fun m => (m.Recency : ℚ))).length := by
    rw [sortedVals_length]
    exact hp
  have hsgetD : ∀ i, i < (sortedVals (ms.map fun m => (m.Recency : ℚ))).length →
      (sortedVals (ms.map fun m => (m.Recency : ℚ))).getD i 0 =
        ((m0.Recency : ℚ)) := by
    intro i hi
    refine hvc _ ?_
    rw [List.getD_eq_getElem _ _ hi]
    exact mem_sortedVals.mp (List.getElem_mem _)
  have hq : ∀ p : ℚ, quantileAt (ms.map fun m => (m.Recency : ℚ)) p =
      ((m0.Recency : ℚ)) := by
    intro p
    unfold quantileAt
    exact interp_const hsp hsgetD _
  have hnotnodup : ¬ (qcutEdges (ms.map fun m => (m.Recency : ℚ))).Nodup := by
    intro hnd
    rw [qcutEdges_eq] at hnd
    simp only [hq] at hnd
    simp at hnd
  have hqerr : qcut (ms.map fun m => (m.Recency : ℚ)) [5, 4, 3, 2, 1] =
      Except.error "Bin edges must be unique" := by
    unfold qcut
    rw [if_neg hnotnodup]
  unfold scoreStage
  rw [hqerr, except_bind_error]


/-- C8 counterexample: a population of exactly 4 distinct customers on which
the whole pipeline succeeds — no `InsufficientDataError` exists in the code
and `pd.qcut` happily bins 4 distinct values into quintiles, silently
leaving buckets empty. -/
theorem C8_counterexample :
    fourOrders.length = 4 ∧ (rfm fourOrders 20).length = 4 ∧
      pipeline fourOrders 20 = Except.ok fourOut :=
  ⟨rfl, by with_unfolding_all rfl, by with_unfolding_all rfl⟩

theorem C8_degenerate_recency_fails_witness :
    scoreStage degMetrics = Except.error "Bin edges must be unique" :=
  C8_degenerate_recency_fails degMetrics (by decide) (by decide)

/-! ## C9: determinism and idempotence -/

/-- C9: the pipeline is a pure function of `(dataset, snapshot_date)`: two
runs on identical inputs produce identical metrics, scores, segments and
KPIs — there is no hidden state in the embedded computation. -/
theorem C9_idempotent (orders : List OrderRecord) (snap : Int) :
    rfm orders snap = rfm orders snap ∧
      scoreStage (rfm orders snap) = scoreStage (rfm orders snap) ∧
      pipeline orders snap = pipeline orders snap :=
  ⟨rfl, rfl, rfl⟩

/-! ## C10: noninterference of `product_name` and `discount_given` -/


theorem rowsOf_map_strip {d1 d2 : List OrderRecord}
    (h : d1.map stripOrder = d2.map stripOrder) (u : Nat) :
    (rowsOf d1 u).map stripOrder = (rowsOf d2 u).map stripOrder := by
  induction d1 generalizing d2 with
  | nil =>
    cases d2 with
    | nil => rfl
    | cons b l2 => simp at h
  | cons a l ih =>
    cases d2 with
    | nil => simp at h
    | cons b l2 =>
      rw [List.map_cons, List.map_cons] at h
      injection h with hab hl
      have huid : a.user_id = b.user_id := congrArg (fun t => t.1) hab
      unfold rowsOf
      rw [List.filter_cons, List.filter_cons]
      by_cases hu : (a.user_id == u) = true
      · have hu2 : (b.user_id == u) = true := by rw [← huid]; exact hu
        rw [if_pos hu, if_pos hu2, List.map_cons, List.map_cons, hab]
        exact congrArg (List.cons (stripOrder b)) (ih hl)
      · have hu2 : ¬ (b.user_id == u) = true := by rw [← huid]; exact hu
        rw [if_neg hu, if_neg hu2]
        exact ih hl

/-- C10: two datasets that agree on everything except `product_name` and
`discount_given` produce identical metrics, scores, segments and KPIs. -/
theorem C10_noninterference (d1 d2 : List OrderRecord) (snap : Int)
    (h : d1.map stripOrder = d2.map stripOrder) :
    rfm d1 snap = rfm d2 snap ∧ pipeline d1 snap = pipeline d2 snap := by
  have hrfm : rfm d1 snap = rfm d2 snap := by
    have huid : d1.map (·.user_id) = d2.map (·.user_id) := by
      have h1 : d1.map (·.user_id) =
          (d1.map stripOrder).map (fun t => t.1) := by
        rw [List.map_map]
        rfl
      have h2 : d2.map (·.user_id) =
          (d2.map stripOrder).map (fun t => t.1) := by
        rw [List.map_map]
        rfl
      rw [h1, h2, h]
    have hcust : customersOf d1 = customersOf d2 := by
      unfold customersOf
      rw [huid]
    unfold rfm
    rw [hcust]
    refine List.map_congr_left fun u _ => ?_
    have hrows := rowsOf_map_strip h u
    have hdates : (rowsOf d1 u).map (·.order_date) =
        (rowsOf d2 u).map (·.order_date) := by
      have e1 : (rowsOf d1 u).map (·.order_date) =
          ((rowsOf d1 u).map stripOrder).map (fun t => t.2.2.1) := by
        rw [List.map_map]
        rfl
      have e2 : (rowsOf d2 u).map (·.order_date) =
          ((rowsOf d2 u).map stripOrder).map (fun t => t.2.2.1) := by
        rw [List.map_map]
        rfl
      rw [e1, e2, hrows]
    have hvals : (rowsOf d1 u).map (·.order_value) =
        (rowsOf d2 u).map (·.order_value) := by
      have e1 : (rowsOf d1 u).map (·.order_value) =
          ((rowsOf d1 u).map stripOrder).map (fun t => t.2.2.2) := by
        rw [List.map_map]
        rfl
      have e2 : (rowsOf d2 u).map (·.order_value) =
          ((rowsOf d2 u).map stripOrder).map (fun t => t.2.2.2) := by
        rw [List.map_map]
        rfl
      rw [e1, e2, hrows]
    have hlen : (rowsOf d1 u).length = (rowsOf d2 u).length := by
      have := congrArg List.length hrows
      simpa using this
    show ({ user_id := u
            Recency := snap - ((rowsOf d1 u).map (·.order_date)).max?.getD 0
            Frequency := (rowsOf d1 u).length
            Monetary := ((rowsOf d1 u).map (·.order_value)).sum } :
        CustomerMetrics) =
      { user_id := u
        Recency := snap - ((rowsOf d2 u).map (·.order_date)).max?.getD 0
        Frequency := (rowsOf d2 u).length
        Monetary := ((rowsOf d2 u).map (·.order_value)).sum }
    rw [hdates, hvals, hlen]
  refine ⟨hrfm, ?_⟩
  unfold pipeline
  rw [hrfm]


theorem C10_noninterference_witness :
    rfm exOrders5 20 = rfm exOrders5' 20 ∧
      pipeline exOrders5 20 = pipeline exOrders5' 20 :=
  C10_noninterference exOrders5 exOrders5' 20 (by decide)

theorem C3_recency_inverted_fm_direct_witness :
    (⟨1, 1, 2, 100, 5, 2, 2, "Fence Sitter"⟩ : ScoredRow).R_Score = 5 :=
  (C3_recency_inverted_fm_direct exMetrics exScored
      (by with_unfolding_all rfl)).1.2.1
    ⟨1, 1, 2, 100, 5, 2, 2, "Fence Sitter"⟩ (by decide) (by decide)

/-! ## C1: the segment classifier -/

/-- C1: for every score triple, the segment classifier returns exactly one of
the five labels by first-match evaluation in the stated order; rule 4 tests
equality `R = 2` (so `R = 1` with any F, M yields Churned), and the result is
a pure function of the triple alone. -/
theorem C1_segment_classifier (r f m : Nat) :
    segment r f m ∈ ["Champion", "Loyal", "Fence Sitter", "At Risk", "Churned"] ∧
    (segment r f m = "Champion" ↔ 4 ≤ r ∧ 4 ≤ f ∧ 4 ≤ m) ∧
    (segment r f m = "Loyal" ↔ ¬(4 ≤ r ∧ 4 ≤ f ∧ 4 ≤ m) ∧ 4 ≤ f ∧ 3 ≤ r) ∧
    (segment r f m = "Fence Sitter" ↔
      ¬(4 ≤ r ∧ 4 ≤ f ∧ 4 ≤ m) ∧ ¬(4 ≤ f ∧ 3 ≤ r) ∧ 3 ≤ r) ∧
    (segment r f m = "At Risk" ↔ r = 2) ∧
    (segment r f m = "Churned" ↔ r ≤ 1) ∧
    (r = 1 → segment r f m = "Churned") := by
  have h1 : ("Champion" : String) ≠ "Loyal" := by decide
  have h2 : ("Champion" : String) ≠ "Fence Sitter" := by decide
  have h3 : ("Champion" : String) ≠ "At Risk" := by decide
  have h4 : ("Champion" : String) ≠ "Churned" := by decide
  have h5 : ("Loyal" : String) ≠ "Fence Sitter" := by decide
  have h6 : ("Loyal" : String) ≠ "At Risk" := by decide
  have h7 : ("Loyal" : String) ≠ "Churned" := by decide
  have h8 : ("Fence Sitter" : String) ≠ "At Risk" := by decide
  have h9 : ("Fence Sitter" : String) ≠ "Churned" := by decide
  have h10 : ("At Risk" : String) ≠ "Churned" := by decide
  unfold segment
  split_ifs with g1 g2 g3 g4 <;> simp_all <;> omega

/-! ## C2: the metric aggregator -/

/-- C2: on any collection of order rows, the aggregator produces exactly one
metrics row per distinct customer id; its Recency is the snapshot date minus
the customer's maximum order date (in whole days), its Frequency the raw
count of the customer's rows, and its Monetary the sum of the customer's
order values, with the discount not subtracted. -/
theorem C2_metric_aggregator (orders : List OrderRecord) (snap : Int)
    (hne : orders ≠ []) :
    ((rfm orders snap).map (·.user_id)).Nodup ∧
    (∀ u, u ∈ (rfm orders snap).map (·.user_id) ↔ u ∈ orders.map (·.user_id)) ∧
    (∀ row ∈ rfm orders snap,
      (∃ d, d ∈ (rowsOf orders row.user_id).map (·.order_date) ∧
        (∀ d' ∈ (rowsOf orders row.user_id).map (·.order_date), d' ≤ d) ∧
        row.Recency = snap - d) ∧
      row.Frequency = (rowsOf orders row.user_id).length ∧
      row.Monetary = ((rowsOf orders row.user_id).map (·.order_value)).sum) := by
  refine ⟨by rw [rfm_map_user_id]; exact customersOf_nodup orders,
    fun u => by rw [rfm_map_user_id]; exact mem_customersOf, ?_⟩
  intro row hrow
  rcases List.mem_map.mp hrow with ⟨u, hu, hbuild⟩
  have hne' : (rowsOf orders u).map (·.order_date) ≠ [] := by
    simpa using rowsOf_ne_nil (mem_customersOf.mp hu)
  rcases maxDate_spec hne' with ⟨d, hmax, hdmem, hdub⟩
  subst hbuild
  exact ⟨⟨d, hdmem, hdub, by simp [hmax]⟩, rfl, rfl⟩


theorem C2_metric_aggregator_witness :
    exOrders ≠ [] ∧
    (((rfm exOrders 20).map (·.user_id)).Nodup ∧
    (∀ u, u ∈ (rfm exOrders 20).map (·.user_id) ↔ u ∈ exOrders.map (·.user_id)) ∧
    (∀ row ∈ rfm exOrders 20,
      (∃ d, d ∈ (rowsOf exOrders row.user_id).map (·.order_date) ∧
        (∀ d' ∈ (rowsOf exOrders row.user_id).map (·.order_date), d' ≤ d) ∧
        row.Recency = 20 - d) ∧
      row.Frequency = (rowsOf exOrders row.user_id).length ∧
      row.Monetary = ((rowsOf exOrders row.user_id).map (·.order_value)).sum)) :=
  ⟨by decide, C2_metric_aggregator exOrders 20 (by decide)⟩

end RFM
